import Mathlib

/-!
Shallow embedding of the SKU normalization and grouping engine of the
White-piegon WooCommerce sync scripts (config.py, image_mapping.py,
sync_products_v2.py), together with proofs settling the frozen claims
about it.

Strings are modelled as `String`/`List Char`; the spreadsheet SKUs and
folder names handled by the scripts are ASCII, so Python's
unicode-aware `str.strip`/`str.split`/`str.upper` and the regex classes
`\s`, `\d`, `[A-Z]` are embedded at their ASCII meaning.  Python regexes
are hand-compiled to deterministic scanners; every pattern used by the
scripts is anchored with `re.match` and applied to whitespace-collapsed
input, and each scanner's doc comment records the regex it implements
and why greedy/lazy backtracking degenerates to the given scan.
-/

namespace WhitePigeon

/-! ### Character classes (ASCII fragment of Python's str/re behaviour) -/
/-- Python whitespace (`str.split`, `str.strip`, regex `\s`), ASCII part:
space, tab, newline, carriage return, vertical tab, form feed. -/
def pyWS (c : Char) : Bool :=
  c == ' ' || c == '\t' || c == '\n' || c == '\r' || c == '\x0b' || c == '\x0c'

/-- Regex class `[A-Z]`. -/
def isUpperAZ (c : Char) : Bool := decide ('A' ≤ c) && decide (c ≤ 'Z')

/-- Regex class `\d`, ASCII part. -/
def isDigit09 (c : Char) : Bool := decide ('0' ≤ c) && decide (c ≤ '9')

/-- The lowercase-to-uppercase table of the ASCII letters. -/
def UPPER_MAP : List (Char × Char) :=
  [('a', 'A'), ('b', 'B'), ('c', 'C'), ('d', 'D'), ('e', 'E'), ('f', 'F'),
   ('g', 'G'), ('h', 'H'), ('i', 'I'), ('j', 'J'), ('k', 'K'), ('l', 'L'),
   ('m', 'M'), ('n', 'N'), ('o', 'O'), ('p', 'P'), ('q', 'Q'), ('r', 'R'),
   ('s', 'S'), ('t', 'T'), ('u', 'U'), ('v', 'V'), ('w', 'W'), ('x', 'X'),
   ('y', 'Y'), ('z', 'Z')]

/-- Python `str.upper()` on ASCII input: uppercase the lowercase letters,
leave every other character unchanged. -/
def pyUpper (c : Char) : Char := (UPPER_MAP.lookup c).getD c

/-- `sku.replace('/', '-')` as a character map. -/
def slashToDash (c : Char) : Char := if c = '/' then '-' else c

/-! ### Python string primitives -/
/-- Python `str.strip()`: drop leading and trailing whitespace. -/
def pyStrip (l : List Char) : List Char :=
  ((l.dropWhile pyWS).reverse.dropWhile pyWS).reverse

/-- Worker for `str.split()` with no argument: `acc` is the current word,
reversed.  A whitespace character flushes the accumulated word (if any);
other characters extend it. -/
def wordsAux : List Char → List Char → List (List Char)
  | [], acc => if acc.isEmpty then [] else [acc.reverse]
  | c :: cs, acc =>
    if pyWS c then
      if acc.isEmpty then wordsAux cs [] else acc.reverse :: wordsAux cs []
    else wordsAux cs (c :: acc)

/-- Python `str.split()` with no argument: the maximal runs of
non-whitespace characters. -/
def pyWords (l : List Char) : List (List Char) := wordsAux l []

/-- `' '.join(sku.split())`: collapse every whitespace run to one space
and drop leading/trailing whitespace. -/
def collapseWS (l : List Char) : List Char := List.intercalate [' '] (pyWords l)

/-- Fuel-indexed worker for `squashDash` below; the fuel (an upper bound
on the input length, so it never runs out) only makes the recursion
structural, so that the function reduces definitionally. -/
def sdFuel : Nat → List Char → List Char
  | 0, _ => []
  | _ + 1, [] => []
  | n + 1, c :: cs =>
    match (c :: cs).dropWhile pyWS with
    | '-' :: r => '-' :: sdFuel n (r.dropWhile pyWS)
    | _ => c :: sdFuel n cs

/-- `re.sub(r'\s*-\s*', '-', sku)` (image_mapping.normalize_sku line 41).
`re.sub` scans left to right; at each position `\s*` greedily takes the
whitespace run, must then see `-`, then greedily takes the following
whitespace run (no other backtracking can succeed, since `\s` never
matches `-`).  On failure the scan advances one character.  The
recursion equations `squashDash_nil`/`squashDash_cons` below express
this scan directly. -/
def squashDash (l : List Char) : List Char := sdFuel l.length l

/-- `s.replace(' ', '')`: remove the space character (only). -/
def noSpaces (l : List Char) : List Char := l.filter (fun c => !(c == ' '))

/-! ### Hand-compiled regex matchers -/
/-- Tail matcher for `[\s]*-[\s]*(\d+)$` (the part of config.parse_sku's
dash pattern after the lazy group): optional whitespace, a dash, optional
whitespace, then a nonempty digit run reaching the end.  Greedy `[\s]*`
is deterministic here because `\s` does not match `-` or a digit.
Returns the digit run. -/
def dashDigitsTail (r : List Char) : Option (List Char) :=
  match r.dropWhile pyWS with
  | '-' :: r2 =>
    let d := r2.dropWhile pyWS
    if d ≠ [] ∧ d.all isDigit09 then some d else none
  | _ => none

/-- Lazy scan for `^(.+?)[\s]*-[\s]*(\d+)$` (config.parse_sku line 160):
`.+?` takes the shortest nonempty prefix whose remainder matches
`dashDigitsTail`.  `accRev` is the prefix consumed so far, reversed.
Returns (group 1, group 2). -/
def dashSplit : List Char → List Char → Option (List Char × List Char)
  | accRev, [] =>
    match dashDigitsTail [] with
    | some d => some (accRev.reverse, d)
    | none => none
  | accRev, c :: cs =>
    match dashDigitsTail (c :: cs) with
    | some d => some (accRev.reverse, d)
    | none => dashSplit (c :: accRev) cs

/-- `re.match(r'^(.+?)[\s]*-[\s]*(\d+)$', sku)`.  The inputs it is applied
to are whitespace-collapsed, hence contain no newline, so `.` matching
any non-newline character is simply any character. -/
def matchDashVar (l : List Char) : Option (List Char × List Char) :=
  match l with
  | [] => none
  | c :: cs => dashSplit [c] cs

/-- Greedy match of the common stem `WP[A-Z]+\s*\d+` at the start of the
input: returns (letter run after WP, whitespace run, digit run,
remainder).  Each greedy run is maximal and no backtracking into it can
help: shortening `[A-Z]+` leaves an uppercase letter where `\s*`/`\d+`
must match, shortening `\s*` leaves whitespace where a digit must be,
and shortening `\d+` leaves a digit where the (non-digit) continuation
must match. -/
def wpStem (l : List Char) : Option (List Char × List Char × List Char × List Char) :=
  match l with
  | 'W' :: 'P' :: r =>
    let L := r.takeWhile isUpperAZ
    if L = [] then none
    else
      let r1 := r.dropWhile isUpperAZ
      let W := r1.takeWhile pyWS
      let r2 := r1.dropWhile pyWS
      let D := r2.takeWhile isDigit09
      if D = [] then none else some (L, W, D, r2.dropWhile isDigit09)
  | _ => none

/-- `re.match(r'^(WP[A-Z]+\s*\d+)\s+(.+)$', s)` (config.parse_sku lines
165 and 173).  Applied only to whitespace-collapsed, stripped strings,
where the final `\s+(.+)$` succeeds iff the remainder starts with
whitespace and something non-empty follows the whitespace run (the input
never ends in whitespace, so the greedy `\s+` never backtracks).
Returns (group 1 = `WP[A-Z]+\s*\d+`, group 2). -/
def matchSpaceVar (l : List Char) : Option (List Char × List Char) :=
  match wpStem l with
  | some (L, W, D, rest) =>
    match rest with
    | c :: _ =>
      if pyWS c then
        let rem := rest.dropWhile pyWS
        if rem = [] then none else some ('W' :: 'P' :: (L ++ W ++ D), rem)
      else none
    | [] => none
  | none => none

/-- `re.match(r'^(WP[A-Z]+)\s*(\d+)-(.+)$', sku)` (image_mapping.
normalize_sku line 44).  Returns (letter run, digit run, group 3). -/
def matchNormDash (l : List Char) : Option (List Char × List Char × List Char) :=
  match wpStem l with
  | some (L, _, D, rest) =>
    match rest with
    | '-' :: R => if R = [] then none else some (L, D, R)
    | _ => none
  | none => none

/-- `re.match(r'^(WP[A-Z]+)\s*(\d+)\s+(.+)$', sku)` (image_mapping.
normalize_sku line 56), with the same collapsed-input reading of
`\s+(.+)$` as in `matchSpaceVar`.  Returns (letter run, digit run,
group 3). -/
def matchNormSpace (l : List Char) : Option (List Char × List Char × List Char) :=
  match wpStem l with
  | some (L, _, D, rest) =>
    match rest with
    | c :: _ =>
      if pyWS c then
        let rem := rest.dropWhile pyWS
        if rem = [] then none else some (L, D, rem)
      else none
    | [] => none
  | none => none

/-- `re.match(r'^(WP[A-Z]+)\s*(\d+)$', sku)` (image_mapping.normalize_sku
line 68).  Returns (letter run, digit run). -/
def matchNormBare (l : List Char) : Option (List Char × List Char) :=
  match wpStem l with
  | some (L, _, D, rest) => if rest = [] then some (L, D) else none
  | none => none

/-! ### config.parse_sku -/
/-- The deep-parse correction of config.parse_sku (lines 172-178): if the
base still contains a space, re-apply the `WP`-pattern to the base alone;
on a match, replace the base by group 1 and, only if no variation was
captured before, adopt group 2 as the variation. -/
def parseDeep (base : List Char) (var : Option (List Char)) :
    List Char × Option (List Char) :=
  if base ≠ [] ∧ ' ' ∈ base then
    match matchSpaceVar base with
    | some (g1, g2) =>
      (pyStrip g1,
        match var with
        | none => some (pyStrip g2)
        | some v => some v)
    | none => (base, var)
  else (base, var)

/-- config.parse_sku (lines 141-180).  `none` input models Python `None`
(or a NaN spreadsheet cell passed through `str` guards by callers). -/
def parse_sku (raw : Option String) : Option String × Option String :=
  match raw with
  | none => (none, none)
  | some s =>
    if (pyStrip s.data).isEmpty then (none, none)
    else
      let sku := collapseWS (pyStrip s.data)
      let bv : List Char × Option (List Char) :=
        match matchDashVar sku with
        | some (g1, d) => (pyStrip g1, some (pyStrip d))
        | none =>
          match matchSpaceVar sku with
          | some (g1, g2) => (pyStrip g1, some (pyStrip g2))
          | none => (sku, none)
      let bv2 := parseDeep bv.1 bv.2
      (some (String.mk bv2.1), bv2.2.map String.mk)

/-! ### image_mapping.normalize_sku -/
/-- The preprocessing pipeline of image_mapping.normalize_sku (lines
32-41): strip, collapse whitespace runs, turn slashes into dashes, then
delete whitespace around dashes. -/
def preNorm (l : List Char) : List Char :=
  squashDash ((collapseWS (pyStrip l)).map slashToDash)

/-- image_mapping.normalize_sku (lines 16-79).  Returns
`(normalized, base_sku, variation)`; `none` models the all-`None` triple
returned for a blank/absent input. -/
def normalize_sku (raw : Option String) : Option (String × String × Option String) :=
  match raw with
  | none => none
  | some s =>
    if (pyStrip s.data).isEmpty then none
    else
      let sku := preNorm s.data
      match matchNormDash sku with
      | some (L, D, R) =>
        let base := 'W' :: 'P' :: (L ++ D)
        let v := pyStrip R
        some (String.mk (base ++ '-' :: v), String.mk base, some (String.mk v))
      | none =>
        match matchNormSpace sku with
        | some (L, D, R) =>
          let base := 'W' :: 'P' :: (L ++ D)
          let v := pyStrip R
          some (String.mk (base ++ '-' :: v), String.mk base, some (String.mk v))
        | none =>
          match matchNormBare sku with
          | some (L, D) =>
            let base := 'W' :: 'P' :: (L ++ D)
            some (String.mk base, String.mk base, none)
          | none =>
            let n := noSpaces sku
            some (String.mk n, String.mk n, none)

/-! ### image_mapping.get_folder_key and find_images_for_sku -/
/-- `re.sub(r'\s*\(\d+\)$', '', folder_name)` (image_mapping.get_folder_key
line 89): remove one trailing duplicate-marker suffix of the form
`(<digits>)`, together with the whitespace run before it.  The `$` anchor
means at most one match, and leftmost matching takes the whole preceding
whitespace run. -/
def dropDupMarker (l : List Char) : List Char :=
  match l.reverse with
  | ')' :: r =>
    let d := r.takeWhile isDigit09
    if d = [] then l
    else
      match r.dropWhile isDigit09 with
      | '(' :: r2 => (r2.dropWhile pyWS).reverse
      | _ => l
  | _ => l

/-- image_mapping.get_folder_key (lines 82-90). -/
def get_folder_key (name : String) : String :=
  String.mk ((noSpaces (dropDupMarker name.data)).map pyUpper)

/-- An image-folder index, as built by image_mapping.scan_image_folders:
an insertion-ordered mapping from normalized folder key to that folder's
image paths (only the `images` field of each entry is relevant here). -/
abbrev FolderMap := List (String × List String)

/-- Stage-1 lookup key of find_images_for_sku (line 137):
`normalized.replace(' ', '').upper()`. -/
def stage1Key (normalized : String) : String :=
  String.mk ((noSpaces normalized.data).map pyUpper)

/-- Stage-2 lookup key of find_images_for_sku (line 143):
`f"{base_sku}-{variation.replace(' ', '')}".upper()`. -/
def stage2Key (base_sku v : String) : String :=
  String.mk ((base_sku.data ++ '-' :: noSpaces v.data).map pyUpper)

/-- Stage-3/4 lookup key of find_images_for_sku (lines 149, 156):
`base_sku.upper()`. -/
def baseKey (base_sku : String) : String :=
  String.mk (base_sku.data.map pyUpper)

/-- The stage-2 block of find_images_for_sku (lines 141-145): when the
variation is truthy, look up `base-variation` with the variation's
spaces removed, uppercased. -/
def step2Lookup (folderMap : FolderMap) (base_sku : String)
    (variation : Option String) : Option (List String) :=
  match variation with
  | some v => if v = "" then none else folderMap.lookup (stage2Key base_sku v)
  | none => none

/-- image_mapping.find_images_for_sku (lines 121-159).  Dictionary
membership/lookup is association-list lookup; the stage-4 loop over
`folder_map.items()` is a first-match scan in insertion order. -/
def find_images_for_sku (raw : String) (folderMap : FolderMap) : List String :=
  if raw = "" then []
  else
    match normalize_sku (some raw) with
    | none => []
    | some (normalized, base_sku, variation) =>
      if normalized = "" then []
      else
        match folderMap.lookup (stage1Key normalized) with
        | some imgs => imgs
        | none =>
          match step2Lookup folderMap base_sku variation with
          | some imgs => imgs
          | none =>
            let step3 : Option (List String) :=
              if base_sku = "" then none
              else folderMap.lookup (baseKey base_sku)
            match step3 with
            | some imgs => imgs
            | none =>
              if base_sku = "" then []
              else
                match folderMap.find?
                    (fun p => (baseKey base_sku).isPrefixOf p.1) with
                | some p => p.2
                | none => []

/-- Python `raw.upper()` at the string level. -/
def strUpper (s : String) : String := String.mk (s.data.map pyUpper)

/-- The key that find_images_for_sku consults at its exact-match stage
(lines 129-137): `None` when the function bails out before the lookup
because normalize_sku returned the all-`None` triple. -/
def exact_match_key (raw : String) : Option String :=
  (normalize_sku (some raw)).map (fun t => stage1Key t.1)

/-! ### Normal form for normalize_sku's preprocessing
`preNorm` collapses whitespace, maps slashes to dashes and deletes
whitespace adjacent to dashes.  Its result is determined by the word
list of the slash-mapped input: the words joined by single spaces,
except that no space is emitted next to a word boundary that touches a
dash.  `glue` below realises that reading; the equality with `preNorm`
is proved in the theorems section and drives the whitespace/dash/slash
invariance facts about normalize_sku. -/
/-- Does the word start with a dash? -/
def wordHeadDash (w : List Char) : Bool := w.head? == some '-'

/-- Does the word end with a dash? -/
def wordLastDash (w : List Char) : Bool := w.getLast? == some '-'

/-- Join words with single spaces, omitting the space at boundaries that
touch a dash. -/
def glue : List (List Char) → List Char
  | [] => []
  | [w] => w
  | w1 :: w2 :: rest =>
    w1 ++ (if wordLastDash w1 || wordHeadDash w2 then [] else [' ']) ++
      glue (w2 :: rest)

/-- One formatting edit between two raw SKU spellings: replacing one
nonempty whitespace run by another, replacing a slash by a dash, or
dropping whitespace around a dash.  These generate the "differ only in
whitespace run-length / dash spacing / slash-vs-dash" relation of the
specification. -/
inductive SkuEditStep : List Char → List Char → Prop
  | wsRun (u v r₁ r₂ : List Char) (h₁ : r₁ ≠ []) (h₂ : r₂ ≠ [])
      (hw₁ : ∀ c ∈ r₁, pyWS c = true) (hw₂ : ∀ c ∈ r₂, pyWS c = true) :
      SkuEditStep (u ++ r₁ ++ v) (u ++ r₂ ++ v)
  | slashDash (u v : List Char) :
      SkuEditStep (u ++ '/' :: v) (u ++ '-' :: v)
  | dashSpace (u v r₁ r₂ : List Char)
      (hw₁ : ∀ c ∈ r₁, pyWS c = true) (hw₂ : ∀ c ∈ r₂, pyWS c = true) :
      SkuEditStep (u ++ r₁ ++ '-' :: (r₂ ++ v)) (u ++ '-' :: v)

/-- The normalized_key field computed by image_mapping.normalize_sku. -/
def normalized_key (raw : String) : Option String :=
  (normalize_sku (some raw)).map (fun t => t.1)

/-! ### sync_products_v2.ProductSyncV2: size columns, row grouping, name pick
A spreadsheet row is its list of cells in column order; `none` models a
NaN/absent cell (`pd.isna`), `some s` a cell whose string form is `s`.
Numeric cells play no role in the properties below (the price field of a
variant is the result of `clean_price`, i.e. float parsing, which no
claim touches; it is therefore not carried in `Variant`). -/
abbrev Row := List (Option String)

/-- `row.iloc[i]` for the column indices used by the sync (rows produced
by the spreadsheet reader are wide enough for every configured column;
out-of-range access is modelled as an absent cell). -/
def cellAt (row : Row) (i : Nat) : Option String := row.getD i none

/-- config.SIZE_COLUMNS (lines 57-66): spreadsheet column offset to size
label, in the dict's insertion order. -/
def SIZE_COLUMNS : List (Nat × String) :=
  [(9, "2-3"), (10, "3-4"), (11, "4-5"), (12, "6-7"),
   (13, "7-8"), (14, "9-10"), (15, "11-12"), (16, "13-14")]

/-- sync_products_v2.ProductSyncV2.get_available_sizes (lines 153-160):
a size label is collected iff the cell at its column offset exists, is
not NaN, and its stripped, uppercased string form equals `"X"`. -/
def get_available_sizes (row : Row) : List String :=
  SIZE_COLUMNS.filterMap (fun p =>
    let value := if p.1 < row.length then cellAt row p.1 else none
    match value with
    | some v =>
      if String.mk ((pyStrip v.data).map pyUpper) = "X" then some p.2 else none
    | none => none)

/-- The per-row record built by group_rows_by_base_sku (sync_products_v2.py
lines 177-189), restricted to the fields the claims are about (`price`,
`famille`, `tech_desc`, `description` are carried along unchanged and
unused here). -/
structure Variant where
  row_idx : Nat
  raw_sku : String
  var_code : Option String
  color : Option String
  sizes : List String
  name : Option String
deriving DecidableEq

/-- Column indices from config.XLSX_COLUMNS. -/
def XLSX_SKU_COL : Nat := 2

/-- Column indices from config.XLSX_COLUMNS. -/
def XLSX_NAME_COL : Nat := 4

/-- Column indices from config.XLSX_COLUMNS. -/
def XLSX_COLOR_COL : Nat := 6

/-- One iteration of group_rows_by_base_sku's loop body (sync_products_v2.py
lines 166-189): skip the row when the SKU cell is NaN or parses to a
falsy base, otherwise produce the group key and the variant record.
The `color` field falls back to the parsed variation code when the color
cell is NaN (line 182). -/
def mkGroupEntry (idx : Nat) (row : Row) : Option (String × Variant) :=
  match cellAt row XLSX_SKU_COL with
  | none => none
  | some raw =>
    match parse_sku (some raw) with
    | (some base, var_code) =>
      if base = "" then none
      else
        some (base,
          { row_idx := idx
            raw_sku := String.mk (pyStrip raw.data)
            var_code := var_code
            color :=
              match cellAt row XLSX_COLOR_COL with
              | some c => some c
              | none => var_code
            sizes := get_available_sizes row
            name := cellAt row XLSX_NAME_COL })
    | (none, _) => none

/-- `defaultdict(list)` insertion: append to an existing key's list, else
add the key at the end (Python dicts preserve insertion order). -/
def insertGroup (gs : List (String × List Variant)) (k : String) (v : Variant) :
    List (String × List Variant) :=
  match gs with
  | [] => [(k, [v])]
  | (k', vs) :: rest =>
    if k' = k then (k', vs ++ [v]) :: rest else (k', vs) :: insertGroup rest k v

/-- sync_products_v2.ProductSyncV2.group_rows_by_base_sku (lines 162-191):
a left-to-right scan of the row range `df[startRow:endRow]` (given here
as the list of those rows, `startRow` fixing the index of the first). -/
def group_rows_by_base_sku (startRow : Nat) (rows : List Row) :
    List (String × List Variant) :=
  (rows.foldl
    (fun st row =>
      match mkGroupEntry st.1 row with
      | some kv => (st.1 + 1, insertGroup st.2 kv.1 kv.2)
      | none => (st.1 + 1, st.2))
    ((startRow, []) : Nat × List (String × List Variant))).2

/-- The representative-name selection of create_product_from_group
(sync_products_v2.py lines 227-239) for a group with no pre-existing
remote product: scan the variants for the first truthy `name` value,
strip it, and fail (`none`, the `no_name` skip) when no variant has a
truthy name or the selected name strips to the empty string. -/
def pick_product_name (variants : List Variant) : Option String :=
  let raw := variants.findSome? (fun v =>
    match v.name with
    | some n => if n = "" then none else some n
    | none => none)
  match raw with
  | some n =>
    let t := String.mk (pyStrip n.data)
    if t = "" then none else some t
  | none => none

/-- Rows whose SKU cells carry the three SKUs of the grouping claim C1
(all other cells absent). -/
def c1Rows : List Row :=
  [[none, none, some "WPJF001-A"],
   [none, none, some "WPJF001-B"],
   [none, none, some "WPGR002"]]

/-- A row whose first size cell (offset 9) is "Y": non-blank after
trimming, but not the "X" marker. -/
def c6Row : Row :=
  [none, none, none, none, none, none, none, none, none, some "Y"]

/-- A row whose first size cell is " x ": trims and uppercases to "X". -/
def c6WRow : Row :=
  [none, none, none, none, none, none, none, none, none, some " x "]

/-- Variant with a whitespace-only name followed by one with a real name. -/
def c8v1 : Variant :=
  { row_idx := 0, raw_sku := "S1", var_code := none, color := none,
    sizes := [], name := some "  " }

/-- Variant with a whitespace-only name followed by one with a real name. -/
def c8v2 : Variant :=
  { row_idx := 1, raw_sku := "S2", var_code := none, color := none,
    sizes := [], name := some "Robe" }

/-- Row with a dash-variation SKU and no color cell. -/
def c9Row : Row := [none, none, some "WPJF 001-127"]

/-- The variant the grouper builds from `c9Row` at row index 5. -/
def c9Var : Variant :=
  { row_idx := 5, raw_sku := "WPJF 001-127", var_code := some "127",
    color := some "127", sizes := [], name := none }

/-! ## Theorems -/

theorem dropWhile_length_le (p : Char → Bool) (l : List Char) :
    (l.dropWhile p).length ≤ l.length := by
  induction l with
  | nil => simp
  | cons c cs ih =>
    rw [List.dropWhile_cons]
    split
    · exact le_trans ih (by simp)
    · simp

theorem sdFuel_succ_dash (n : Nat) (c : Char) (cs r : List Char)
    (h : (c :: cs).dropWhile pyWS = '-' :: r) :
    sdFuel (n + 1) (c :: cs) = '-' :: sdFuel n (r.dropWhile pyWS) := by
  simp only [sdFuel, h]

theorem sdFuel_succ_other (n : Nat) (c : Char) (cs : List Char)
    (h : ∀ r, (c :: cs).dropWhile pyWS ≠ '-' :: r) :
    sdFuel (n + 1) (c :: cs) = c :: sdFuel n cs := by
  simp only [sdFuel]

theorem sdFuel_congr : ∀ (n m : Nat) (l : List Char),
    l.length ≤ n → l.length ≤ m → sdFuel n l = sdFuel m l := by
  intro n
  induction n with
  | zero =>
    intro m l hn _
    have hl : l = [] := List.length_eq_zero.mp (Nat.le_zero.mp hn)
    subst hl
    cases m <;> rfl
  | succ n ih =>
    intro m l hn hm
    cases l with
    | nil => cases m <;> rfl
    | cons c cs =>
      cases m with
      | zero => simp at hm
      | succ m =>
        simp only [List.length_cons] at hn hm
        have hdw : ((c :: cs).dropWhile pyWS).length ≤ cs.length + 1 := by
          simpa using dropWhile_length_le pyWS (c :: cs)
        cases hcase : (c :: cs).dropWhile pyWS with
        | nil =>
          rw [sdFuel_succ_other n c cs (by simp [hcase]),
            sdFuel_succ_other m c cs (by simp [hcase])]
          exact congrArg _ (ih m cs (by omega) (by omega))
        | cons d r =>
          by_cases hd : d = '-'
          · subst hd
            have hr : r.length + 1 ≤ cs.length + 1 := by
              rw [hcase] at hdw; simpa using hdw
            have hrd : (r.dropWhile pyWS).length ≤ r.length :=
              dropWhile_length_le _ _
            rw [sdFuel_succ_dash n c cs r hcase, sdFuel_succ_dash m c cs r hcase]
            exact congrArg _ (ih m (r.dropWhile pyWS) (by omega) (by omega))
          · have hno : ∀ r2, (c :: cs).dropWhile pyWS ≠ '-' :: r2 := by
              intro r2 hcon
              rw [hcase] at hcon
              injection hcon with h1 _
              exact hd h1
            rw [sdFuel_succ_other n c cs hno, sdFuel_succ_other m c cs hno]
            exact congrArg _ (ih m cs (by omega) (by omega))

theorem squashDash_nil : squashDash [] = [] := rfl

/-- Recursion equation of `squashDash`, matching branch: a whitespace run
followed by a dash is replaced by the dash, and the whitespace after the
dash is consumed. -/
theorem squashDash_cons_dash (c : Char) (cs r : List Char)
    (h : (c :: cs).dropWhile pyWS = '-' :: r) :
    squashDash (c :: cs) = '-' :: squashDash (r.dropWhile pyWS) := by
  have hdw : ((c :: cs).dropWhile pyWS).length ≤ cs.length + 1 := by
    simpa using dropWhile_length_le pyWS (c :: cs)
  rw [h] at hdw
  unfold squashDash
  rw [List.length_cons, sdFuel_succ_dash cs.length c cs r h]
  exact congrArg _
    (sdFuel_congr cs.length (r.dropWhile pyWS).length (r.dropWhile pyWS)
      (le_trans (dropWhile_length_le _ _) (by simp at hdw; omega)) le_rfl)

/-- Recursion equation of `squashDash`, non-matching branch: the scan
emits the current character and advances by one. -/
theorem squashDash_cons_other (c : Char) (cs : List Char)
    (h : ∀ r, (c :: cs).dropWhile pyWS ≠ '-' :: r) :
    squashDash (c :: cs) = c :: squashDash cs := by
  unfold squashDash
  rw [List.length_cons, sdFuel_succ_other cs.length c cs h]

/-! ## Support lemmas on the string pipeline -/
theorem dropWhile_head_false (p : Char → Bool) (l : List Char) (c : Char)
    (r : List Char) (h : l.dropWhile p = c :: r) : p c = false := by
  induction l with
  | nil => simp at h
  | cons a as ih =>
    rw [List.dropWhile_cons] at h
    split at h
    · exact ih h
    · rename_i hpa
      injection h with h1 _
      subst h1
      simpa using hpa

theorem pyStrip_ne_nil (c : Char) (t : List Char) (hc : pyWS c = false) :
    pyStrip (c :: t) ≠ [] := by
  unfold pyStrip
  intro h
  have h2 : (c :: t).dropWhile pyWS = c :: t := by
    rw [List.dropWhile_cons, hc]
    simp
  rw [h2] at h
  have h3 : (c :: t).reverse.dropWhile pyWS = [] := by
    cases hcase : (c :: t).reverse.dropWhile pyWS with
    | nil => rfl
    | cons d r => rw [hcase] at h; simp at h
  have h4 := List.dropWhile_eq_nil_iff.mp h3 c (by simp)
  rw [hc] at h4
  exact Bool.noConfusion h4

/-- A nonempty stripped string starts with a non-whitespace character. -/
theorem pyStrip_shape (l : List Char) (hne : pyStrip l ≠ []) :
    ∃ c t, pyStrip l = c :: t ∧ pyWS c = false := by
  have hps : pyStrip l = ((l.dropWhile pyWS).reverse.dropWhile pyWS).reverse := rfl
  cases hm : l.dropWhile pyWS with
  | nil => rw [hps, hm] at hne; simp at hne
  | cons c m =>
    have hc : pyWS c = false := dropWhile_head_false pyWS l c m hm
    have hps2 : pyStrip l = ((c :: m).reverse.dropWhile pyWS).reverse := by
      rw [hps, hm]
    have hdecomp : (c :: m) =
        ((c :: m).reverse.dropWhile pyWS).reverse ++
          ((c :: m).reverse.takeWhile pyWS).reverse := by
      conv_lhs => rw [← List.reverse_reverse (c :: m)]
      rw [← List.reverse_append,
        List.takeWhile_append_dropWhile pyWS (c :: m).reverse]
    cases hr : ((c :: m).reverse.dropWhile pyWS).reverse with
    | nil => rw [hps2, hr] at hne; exact absurd rfl hne
    | cons d u =>
      refine ⟨d, u, by rw [hps2, hr], ?_⟩
      rw [hr] at hdecomp
      have hcd : c = d := by
        have h5 := congrArg (fun x => x.head?) hdecomp
        simpa using h5
      rw [← hcd]
      exact hc

theorem wordsAux_nil_acc (acc : List Char) :
    wordsAux [] acc = if acc.isEmpty then [] else [acc.reverse] := by
  simp [wordsAux]

theorem wordsAux_cons_ws (c : Char) (cs acc : List Char) (hc : pyWS c = true) :
    wordsAux (c :: cs) acc =
      if acc.isEmpty then wordsAux cs [] else acc.reverse :: wordsAux cs [] := by
  simp [wordsAux, hc]

theorem wordsAux_cons_nonws (c : Char) (cs acc : List Char) (hc : pyWS c = false) :
    wordsAux (c :: cs) acc = wordsAux cs (c :: acc) := by
  simp [wordsAux, hc]

/-- Splitting a word-initial list: `wordsAux` with a nonempty accumulated
word closes that word at the next whitespace run. -/
theorem wordsAux_acc : ∀ (t acc : List Char), acc ≠ [] →
    wordsAux t acc =
      (acc.reverse ++ t.takeWhile (fun c => !pyWS c)) ::
        pyWords (t.dropWhile (fun c => !pyWS c)) := by
  intro t
  induction t with
  | nil =>
    intro acc hacc
    rw [wordsAux_nil_acc]
    simp [List.isEmpty_iff, hacc, pyWords, wordsAux_nil_acc]
  | cons c cs ih =>
    intro acc hacc
    by_cases hc : pyWS c = true
    · rw [wordsAux_cons_ws c cs acc hc]
      have htk : (c :: cs).takeWhile (fun x => !pyWS x) = [] := by
        rw [List.takeWhile_cons, hc]
        simp
      have hdr : (c :: cs).dropWhile (fun x => !pyWS x) = c :: cs := by
        rw [List.dropWhile_cons, hc]
        simp
      rw [htk, hdr]
      have hpw : pyWords (c :: cs) = wordsAux cs [] := by
        unfold pyWords
        rw [wordsAux_cons_ws c cs [] hc]
        simp
      have hae : acc.isEmpty = false := by
        simpa [List.isEmpty_iff] using hacc
      rw [hae, hpw]
      simp
    · have hcf : pyWS c = false := by simpa using hc
      rw [wordsAux_cons_nonws c cs acc hcf, ih (c :: acc) (by simp)]
      have htk : (c :: cs).takeWhile (fun x => !pyWS x) =
          c :: cs.takeWhile (fun x => !pyWS x) := by
        rw [List.takeWhile_cons, hcf]
        simp
      have hdr : (c :: cs).dropWhile (fun x => !pyWS x) =
          cs.dropWhile (fun x => !pyWS x) := by
        rw [List.dropWhile_cons, hcf]
        simp
      rw [htk, hdr]
      simp

theorem pyWords_cons_nonws (c : Char) (t : List Char) (hc : pyWS c = false) :
    pyWords (c :: t) =
      (c :: t.takeWhile (fun x => !pyWS x)) ::
        pyWords (t.dropWhile (fun x => !pyWS x)) := by
  have h : pyWords (c :: t) = wordsAux t [c] := by
    unfold pyWords
    rw [wordsAux_cons_nonws c t [] hc]
  rw [h, wordsAux_acc t [c] (by simp)]
  simp

theorem pyWords_cons_ws (c : Char) (t : List Char) (hc : pyWS c = true) :
    pyWords (c :: t) = pyWords t := by
  unfold pyWords
  rw [wordsAux_cons_ws c t [] hc]
  simp

theorem intercalate_cons_cons (sep x y : List Char) (xs : List (List Char)) :
    List.intercalate sep (x :: y :: xs) = x ++ sep ++ List.intercalate sep (y :: xs) := by
  simp [List.intercalate, List.intersperse]

theorem intercalate_singleton (sep x : List Char) :
    List.intercalate sep [x] = x := by
  simp [List.intercalate]

/-- Collapsing a string that starts with a non-whitespace character keeps
that character in front. -/
theorem collapseWS_head (c : Char) (t : List Char) (hc : pyWS c = false) :
    ∃ u, collapseWS (c :: t) = c :: u := by
  unfold collapseWS
  rw [pyWords_cons_nonws c t hc]
  cases hrest : pyWords (t.dropWhile (fun x => !pyWS x)) with
  | nil => exact ⟨t.takeWhile (fun x => !pyWS x), by rw [intercalate_singleton]⟩
  | cons w ws =>
    rw [intercalate_cons_cons]
    exact ⟨t.takeWhile (fun x => !pyWS x) ++ [' '] ++
      List.intercalate [' '] (w :: ws), by simp⟩

theorem dashSplit_shape : ∀ (rest accRev g d : List Char),
    dashSplit accRev rest = some (g, d) → ∃ m, g = accRev.reverse ++ m := by
  intro rest
  induction rest with
  | nil =>
    intro accRev g d h
    simp [dashSplit, dashDigitsTail] at h
  | cons c cs ih =>
    intro accRev g d h
    cases hdt : dashDigitsTail (c :: cs) with
    | some d2 =>
      simp [dashSplit, hdt] at h
      exact ⟨[], by rw [← h.1]; simp⟩
    | none =>
      simp only [dashSplit, hdt] at h
      obtain ⟨m, hm⟩ := ih (c :: accRev) g d h
      exact ⟨c :: m, by simpa using hm⟩

theorem matchDashVar_shape (c : Char) (cs g d : List Char)
    (h : matchDashVar (c :: cs) = some (g, d)) : ∃ m, g = c :: m := by
  obtain ⟨m, hm⟩ := dashSplit_shape cs [c] g d h
  exact ⟨m, by simpa using hm⟩

theorem matchSpaceVar_head (l : List Char) (g1 g2 : List Char)
    (h : matchSpaceVar l = some (g1, g2)) : ∃ t, g1 = 'W' :: t := by
  unfold matchSpaceVar at h
  cases hw : wpStem l with
  | none => rw [hw] at h; exact Option.noConfusion h
  | some q =>
    obtain ⟨L, W, D, rest⟩ := q
    rw [hw] at h
    cases rest with
    | nil => exact Option.noConfusion h
    | cons c cs =>
      have h3 : (if pyWS c = true then
          (if (c :: cs).dropWhile pyWS = [] then none
           else some ('W' :: 'P' :: (L ++ W ++ D), (c :: cs).dropWhile pyWS))
          else none) = some (g1, g2) := h
      by_cases hc : pyWS c = true
      · rw [if_pos hc] at h3
        by_cases hr : (c :: cs).dropWhile pyWS = []
        · rw [if_pos hr] at h3
          exact Option.noConfusion h3
        · rw [if_neg hr] at h3
          obtain ⟨h4, h5⟩ := Prod.mk.inj (Option.some_inj.mp h3)
          exact ⟨'P' :: (L ++ W ++ D), h4.symm⟩
      · rw [if_neg hc] at h3
        exact Option.noConfusion h3

theorem parseDeep_fst_ne_nil (base : List Char) (var : Option (List Char))
    (hb : base ≠ []) : (parseDeep base var).1 ≠ [] := by
  unfold parseDeep
  by_cases hcond : base ≠ [] ∧ ' ' ∈ base
  · rw [if_pos hcond]
    cases hm : matchSpaceVar base with
    | none => simpa using hb
    | some p =>
      obtain ⟨g1, g2⟩ := p
      obtain ⟨t, ht⟩ := matchSpaceVar_head base g1 g2 hm
      simp only
      rw [ht]
      exact pyStrip_ne_nil 'W' t (by decide)
  · rw [if_neg hcond]
    simpa using hb

/-! ## Character maps commuting with the preprocessing pipeline -/
theorem mem_of_lookup_eq_some (l : List (Char × Char)) (a b : Char)
    (h : l.lookup a = some b) : (a, b) ∈ l := by
  induction l with
  | nil => simp [List.lookup] at h
  | cons p rest ih =>
    obtain ⟨k, v⟩ := p
    by_cases hk : (a == k) = true
    · have h2 : List.lookup a ((k, v) :: rest) = some v := by
        simp [List.lookup, hk]
      rw [h2] at h
      have hab : b = v := Option.some_inj.mp h.symm
      have hak : a = k := by simpa using hk
      subst hab
      subst hak
      exact List.mem_cons_self _ _
    · have h2 : List.lookup a ((k, v) :: rest) = List.lookup a rest := by
        simp [List.lookup, hk]
      rw [h2] at h
      exact List.mem_cons_of_mem _ (ih h)

/-- Every character is either fixed by `pyUpper` or forms a table pair
with its image. -/
theorem pyUpper_master (c : Char) :
    pyUpper c = c ∨ (c, pyUpper c) ∈ UPPER_MAP := by
  unfold pyUpper
  cases h : UPPER_MAP.lookup c with
  | none => left; rfl
  | some u =>
    right
    simpa using mem_of_lookup_eq_some UPPER_MAP c u h

theorem pyWS_pyUpper (c : Char) : pyWS (pyUpper c) = pyWS c := by
  rcases pyUpper_master c with h | h
  · rw [h]
  · exact (show ∀ p ∈ UPPER_MAP, pyWS p.2 = pyWS p.1 by decide) _ h

theorem pyUpper_idem (c : Char) : pyUpper (pyUpper c) = pyUpper c := by
  rcases pyUpper_master c with h | h
  · rw [h]
    exact h
  · exact (show ∀ p ∈ UPPER_MAP, pyUpper p.2 = p.2 by decide) _ h

theorem pyUpper_eq_dash_iff (c : Char) : pyUpper c = '-' ↔ c = '-' := by
  constructor
  · intro h
    rcases pyUpper_master c with h2 | h2
    · rw [← h2]
      exact h
    · have h3 := (show ∀ p ∈ UPPER_MAP, p.2 ≠ '-' by decide) _ h2
      exact absurd h h3
  · intro h
    subst h
    decide

theorem pyUpper_eq_space_iff (c : Char) : (pyUpper c = ' ') ↔ (c = ' ') := by
  constructor
  · intro h
    rcases pyUpper_master c with h2 | h2
    · rw [← h2]
      exact h
    · have h3 := (show ∀ p ∈ UPPER_MAP, p.2 ≠ ' ' by decide) _ h2
      exact absurd h h3
  · intro h
    subst h
    decide

theorem slashToDash_pyUpper (c : Char) :
    slashToDash (pyUpper c) = pyUpper (slashToDash c) := by
  by_cases h : c = '/'
  · subst h
    decide
  · have h2 : pyUpper c ≠ '/' := by
      rcases pyUpper_master c with h3 | h3
      · rw [h3]
        exact h
      · have h4 := (show ∀ p ∈ UPPER_MAP, p.2 ≠ '/' by decide) _ h3
        exact h4
    unfold slashToDash
    rw [if_neg h2, if_neg h]

theorem pyWS_slashToDash (c : Char) : pyWS (slashToDash c) = pyWS c := by
  unfold slashToDash
  split_ifs with h
  · subst h
    rfl
  · rfl

theorem pyStrip_map (f : Char → Char) (hf : ∀ c, pyWS (f c) = pyWS c)
    (l : List Char) : pyStrip (l.map f) = (pyStrip l).map f := by
  have hpf : pyWS ∘ f = pyWS := funext hf
  unfold pyStrip
  rw [List.dropWhile_map, hpf, ← List.map_reverse, List.dropWhile_map, hpf,
    ← List.map_reverse]

theorem wordsAux_map (f : Char → Char) (hf : ∀ c, pyWS (f c) = pyWS c) :
    ∀ (l acc : List Char),
      wordsAux (l.map f) (acc.map f) = (wordsAux l acc).map (List.map f) := by
  intro l
  induction l with
  | nil =>
    intro acc
    rw [List.map_nil, wordsAux_nil_acc, wordsAux_nil_acc]
    by_cases h : acc = []
    · simp [h]
    · have h1 : acc.isEmpty = false := by simpa [List.isEmpty_iff] using h
      have h2 : (acc.map f).isEmpty = false := by
        simpa [List.isEmpty_iff] using h
      rw [h1, h2]
      simp
  | cons c cs ih =>
    intro acc
    by_cases hc : pyWS c = true
    · have hfc : pyWS (f c) = true := by rw [hf]; exact hc
      rw [List.map_cons, wordsAux_cons_ws (f c) (cs.map f) (acc.map f) hfc,
        wordsAux_cons_ws c cs acc hc]
      by_cases h : acc = []
      · have := ih []
        simp only [List.map_nil] at this
        simp [h, this]
      · have h1 : acc.isEmpty = false := by simpa [List.isEmpty_iff] using h
        have h2 : (acc.map f).isEmpty = false := by
          simpa [List.isEmpty_iff] using h
        have := ih []
        simp only [List.map_nil] at this
        rw [h1, h2]
        simp [this]
    · have hcf : pyWS c = false := by simpa using hc
      have hfc : pyWS (f c) = false := by rw [hf]; exact hcf
      rw [List.map_cons, wordsAux_cons_nonws (f c) (cs.map f) (acc.map f) hfc,
        wordsAux_cons_nonws c cs acc hcf, ← List.map_cons f c acc]
      exact ih (c :: acc)

theorem pyWords_map (f : Char → Char) (hf : ∀ c, pyWS (f c) = pyWS c)
    (l : List Char) : pyWords (l.map f) = (pyWords l).map (List.map f) := by
  have := wordsAux_map f hf l []
  simpa [pyWords] using this

theorem intercalate_map_space (f : Char → Char) (hsp : f ' ' = ' ') :
    ∀ L : List (List Char),
      (List.intercalate [' '] L).map f =
        List.intercalate [' '] (L.map (List.map f)) := by
  intro L
  induction L with
  | nil => rfl
  | cons x xs ih =>
    cases xs with
    | nil => simp [intercalate_singleton]
    | cons y ys =>
      rw [intercalate_cons_cons]
      simp only [List.map_append, List.map_cons, List.map_nil, hsp]
      rw [ih]
      simp only [List.map_cons]
      rw [intercalate_cons_cons]

theorem collapseWS_map (f : Char → Char) (hf : ∀ c, pyWS (f c) = pyWS c)
    (hsp : f ' ' = ' ') (l : List Char) :
    collapseWS (l.map f) = (collapseWS l).map f := by
  unfold collapseWS
  rw [pyWords_map f hf, ← intercalate_map_space f hsp]

theorem beq_space_pyUpper (c : Char) : (pyUpper c == ' ') = (c == ' ') := by
  by_cases h : c = ' '
  · subst h
    rfl
  · have h2 : pyUpper c ≠ ' ' := fun hcon => h ((pyUpper_eq_space_iff c).mp hcon)
    simp [h, h2]

theorem noSpaces_map_pyUpper (l : List Char) :
    noSpaces (l.map pyUpper) = (noSpaces l).map pyUpper := by
  unfold noSpaces
  rw [List.filter_map]
  congr 1
  apply List.filter_congr
  intro c _
  simp [Function.comp, beq_space_pyUpper]

theorem squashDash_map_fuel : ∀ (n : Nat) (l : List Char), l.length ≤ n →
    squashDash (l.map pyUpper) = (squashDash l).map pyUpper := by
  have hpf : pyWS ∘ pyUpper = pyWS := funext pyWS_pyUpper
  intro n
  induction n with
  | zero =>
    intro l h
    have hl : l = [] := List.length_eq_zero.mp (Nat.le_zero.mp h)
    subst hl
    rfl
  | succ n ih =>
    intro l h
    cases l with
    | nil => rfl
    | cons c cs =>
      have hmapdw : ((c :: cs).map pyUpper).dropWhile pyWS =
          ((c :: cs).dropWhile pyWS).map pyUpper := by
        rw [List.dropWhile_map, hpf]
      have hdwlen : ((c :: cs).dropWhile pyWS).length ≤ cs.length + 1 := by
        simpa using dropWhile_length_le pyWS (c :: cs)
      simp only [List.length_cons] at h
      cases hdw : (c :: cs).dropWhile pyWS with
      | nil =>
        have h1 : squashDash (c :: cs) = c :: squashDash cs :=
          squashDash_cons_other c cs (by simp [hdw])
        have h2 : squashDash (pyUpper c :: cs.map pyUpper) =
            pyUpper c :: squashDash (cs.map pyUpper) := by
          apply squashDash_cons_other
          intro r hcon
          rw [show pyUpper c :: cs.map pyUpper = (c :: cs).map pyUpper from rfl,
            hmapdw, hdw] at hcon
          exact List.noConfusion hcon
        rw [List.map_cons, h2, h1, List.map_cons]
        exact congrArg _ (ih cs (by omega))
      | cons d r =>
        by_cases hd : d = '-'
        · subst hd
          have h1 : squashDash (c :: cs) = '-' :: squashDash (r.dropWhile pyWS) :=
            squashDash_cons_dash c cs r hdw
          have hdw2 : ((c :: cs).map pyUpper).dropWhile pyWS =
              '-' :: r.map pyUpper := by
            rw [hmapdw, hdw]
            rfl
          have h2 : squashDash ((c :: cs).map pyUpper) =
              '-' :: squashDash ((r.map pyUpper).dropWhile pyWS) := by
            rw [show (c :: cs).map pyUpper = pyUpper c :: cs.map pyUpper from rfl]
            exact squashDash_cons_dash (pyUpper c) (cs.map pyUpper) (r.map pyUpper)
              (by rw [show pyUpper c :: cs.map pyUpper = (c :: cs).map pyUpper from rfl]
                  exact hdw2)
          have hrdw : (r.map pyUpper).dropWhile pyWS =
              (r.dropWhile pyWS).map pyUpper := by
            rw [List.dropWhile_map, hpf]
          have hrlen : (r.dropWhile pyWS).length ≤ n := by
            have hr1 : r.length + 1 ≤ cs.length + 1 := by
              rw [hdw] at hdwlen
              simpa using hdwlen
            have hr2 : (r.dropWhile pyWS).length ≤ r.length :=
              dropWhile_length_le _ _
            omega
          rw [h2, hrdw, h1, List.map_cons]
          exact congrArg _ (ih (r.dropWhile pyWS) hrlen)
        · have hno : ∀ r2, (c :: cs).dropWhile pyWS ≠ '-' :: r2 := by
            intro r2 hcon
            rw [hdw] at hcon
            injection hcon with hcon1 _
            exact hd hcon1
          have hno2 : ∀ r2, ((c :: cs).map pyUpper).dropWhile pyWS ≠ '-' :: r2 := by
            intro r2 hcon
            rw [hmapdw, hdw] at hcon
            injection hcon with hcon1 _
            exact hd ((pyUpper_eq_dash_iff d).mp hcon1)
          have h1 : squashDash (c :: cs) = c :: squashDash cs :=
            squashDash_cons_other c cs hno
          have h2 : squashDash (pyUpper c :: cs.map pyUpper) =
              pyUpper c :: squashDash (cs.map pyUpper) :=
            squashDash_cons_other (pyUpper c) (cs.map pyUpper)
              (by intro r2
                  rw [show pyUpper c :: cs.map pyUpper = (c :: cs).map pyUpper from rfl]
                  exact hno2 r2)
          rw [List.map_cons, h2, h1, List.map_cons]
          exact congrArg _ (ih cs (by omega))

theorem squashDash_map (l : List Char) :
    squashDash (l.map pyUpper) = (squashDash l).map pyUpper :=
  squashDash_map_fuel l.length l le_rfl

theorem preNorm_map_pyUpper (l : List Char) :
    preNorm (l.map pyUpper) = (preNorm l).map pyUpper := by
  unfold preNorm
  rw [pyStrip_map pyUpper pyWS_pyUpper, collapseWS_map pyUpper pyWS_pyUpper rfl,
    List.map_map,
    show slashToDash ∘ pyUpper = pyUpper ∘ slashToDash from funext slashToDash_pyUpper,
    ← List.map_map, squashDash_map]

/-! ## Word-list machinery for the normalize_sku invariance facts -/
theorem takeWhile_append_of_all (p : Char → Bool) (x y : List Char)
    (h : ∀ c ∈ x, p c = true) :
    (x ++ y).takeWhile p = x ++ y.takeWhile p := by
  induction x with
  | nil => simp
  | cons a as ih =>
    have h1 := h a (by simp)
    have h2 := ih (fun c hc => h c (by simp [hc]))
    simp [List.takeWhile_cons, h1, h2]

theorem dropWhile_append_of_all (p : Char → Bool) (x y : List Char)
    (h : ∀ c ∈ x, p c = true) :
    (x ++ y).dropWhile p = y.dropWhile p := by
  induction x with
  | nil => simp
  | cons a as ih =>
    have h1 := h a (by simp)
    have h2 := ih (fun c hc => h c (by simp [hc]))
    simp [List.dropWhile_cons, h1, h2]

theorem takeWhile_append_stop (p : Char → Bool) (x y : List Char)
    (h : x.dropWhile p ≠ []) :
    (x ++ y).takeWhile p = x.takeWhile p := by
  induction x with
  | nil => simp at h
  | cons a as ih =>
    rw [List.dropWhile_cons] at h
    by_cases ha : p a = true
    · rw [ha] at h
      simp only [if_pos rfl] at h
      simp [List.takeWhile_cons, ha, ih h]
    · have ha2 : p a = false := by simpa using ha
      simp [List.takeWhile_cons, ha2]

theorem dropWhile_append_stop (p : Char → Bool) (x y : List Char)
    (h : x.dropWhile p ≠ []) :
    (x ++ y).dropWhile p = x.dropWhile p ++ y := by
  induction x with
  | nil => simp at h
  | cons a as ih =>
    rw [List.dropWhile_cons] at h
    by_cases ha : p a = true
    · rw [ha] at h
      simp only [if_pos rfl] at h
      simp [List.dropWhile_cons, ha, ih h]
    · have ha2 : p a = false := by simpa using ha
      simp [List.dropWhile_cons, ha2]

theorem dropWhile_eq_self_of_takeWhile_nil (p : Char → Bool) (l : List Char)
    (h : l.takeWhile p = []) : l.dropWhile p = l := by
  have := List.takeWhile_append_dropWhile p l
  rw [h] at this
  simpa using this

theorem takeWhile_eq_self_of_dropWhile_nil (p : Char → Bool) (l : List Char)
    (h : l.dropWhile p = []) : l.takeWhile p = l := by
  have := List.takeWhile_append_dropWhile p l
  rw [h] at this
  simpa using this

/-- A leading whitespace run contributes no words. -/
theorem pyWords_ws_skip : ∀ (r v : List Char), (∀ c ∈ r, pyWS c = true) →
    pyWords (r ++ v) = pyWords v := by
  intro r
  induction r with
  | nil => intro v _; rfl
  | cons a as ih =>
    intro v h
    rw [List.cons_append, pyWords_cons_ws a (as ++ v) (h a (by simp))]
    exact ih v (fun c hc => h c (by simp [hc]))

/-- Replacing the separating whitespace run: the words of `u ++ r ++ v`
with `r` a nonempty whitespace run are the words of `u` and of `v`. -/
theorem pyWords_bridge : ∀ (n : Nat) (u r v : List Char), u.length ≤ n →
    r ≠ [] → (∀ c ∈ r, pyWS c = true) →
    pyWords (u ++ r ++ v) = pyWords u ++ pyWords v := by
  intro n
  induction n with
  | zero =>
    intro u r v hu hr hws
    have hu0 : u = [] := List.length_eq_zero.mp (Nat.le_zero.mp hu)
    subst hu0
    simpa using pyWords_ws_skip r v hws
  | succ n ih =>
    intro u r v hu hr hws
    cases u with
    | nil => simpa using pyWords_ws_skip r v hws
    | cons c u2 =>
      simp only [List.length_cons] at hu
      by_cases hc : pyWS c = true
      · rw [List.cons_append, List.cons_append,
          pyWords_cons_ws c (u2 ++ r ++ v) hc, pyWords_cons_ws c u2 hc]
        exact ih u2 r v (by omega) hr hws
      · have hcf : pyWS c = false := by simpa using hc
        rw [List.cons_append, List.cons_append,
          pyWords_cons_nonws c (u2 ++ r ++ v) hcf, pyWords_cons_nonws c u2 hcf]
        by_cases hd : u2.dropWhile (fun x => !pyWS x) = []
        · have hall : ∀ x ∈ u2, (!pyWS x) = true := by
            intro x hx
            exact List.dropWhile_eq_nil_iff.mp hd x hx
          have htk2 : u2.takeWhile (fun x => !pyWS x) = u2 :=
            takeWhile_eq_self_of_dropWhile_nil _ u2 hd
          obtain ⟨a, r2, hrar⟩ : ∃ a r2, r = a :: r2 := by
            cases r with
            | nil => exact absurd rfl hr
            | cons a r2 => exact ⟨a, r2, rfl⟩
          have hra : pyWS a = true := hws a (by rw [hrar]; simp)
          have htkr : (r ++ v).takeWhile (fun x => !pyWS x) = [] := by
            rw [hrar, List.cons_append, List.takeWhile_cons, hra]
            simp
          have hdrr : (r ++ v).dropWhile (fun x => !pyWS x) = r ++ v :=
            dropWhile_eq_self_of_takeWhile_nil _ _ htkr
          rw [List.append_assoc u2 r v, takeWhile_append_of_all _ u2 (r ++ v) hall,
            dropWhile_append_of_all _ u2 (r ++ v) hall, htkr, hdrr, htk2, hd,
            pyWords_ws_skip r v hws]
          simp [pyWords, wordsAux]
        · rw [List.append_assoc u2 r v, takeWhile_append_stop _ u2 (r ++ v) hd,
            dropWhile_append_stop _ u2 (r ++ v) hd, ← List.append_assoc]
          have hlen : (u2.dropWhile (fun x => !pyWS x)).length ≤ n := by
            have := dropWhile_length_le (fun x => !pyWS x) u2
            omega
          rw [ih (u2.dropWhile (fun x => !pyWS x)) r v hlen hr hws]
          simp

/-- Stripping does not change the word list. -/
theorem pyWords_pyStrip (l : List Char) : pyWords (pyStrip l) = pyWords l := by
  have hstep1 : pyWords (l.dropWhile pyWS) = pyWords l := by
    conv_rhs => rw [← List.takeWhile_append_dropWhile pyWS l]
    exact (pyWords_ws_skip (l.takeWhile pyWS) (l.dropWhile pyWS)
      (fun c hc => List.mem_takeWhile_imp hc)).symm
  set m := l.dropWhile pyWS with hm
  have hdecomp : m = pyStrip l ++ (m.reverse.takeWhile pyWS).reverse := by
    have hps : pyStrip l = (m.reverse.dropWhile pyWS).reverse := rfl
    rw [hps, ← List.reverse_append, List.takeWhile_append_dropWhile,
      List.reverse_reverse]
  by_cases hr : (m.reverse.takeWhile pyWS).reverse = []
  · rw [← hstep1, hdecomp, hr]
    simp
  · rw [← hstep1, hdecomp]
    have hws : ∀ c ∈ (m.reverse.takeWhile pyWS).reverse, pyWS c = true := by
      intro c hc
      rw [List.mem_reverse] at hc
      exact List.mem_takeWhile_imp hc
    have hb := pyWords_bridge (pyStrip l).length (pyStrip l)
      ((m.reverse.takeWhile pyWS).reverse) [] le_rfl hr hws
    simpa [pyWords, wordsAux] using hb.symm

theorem wordsAux_good : ∀ (l acc : List Char), (∀ c ∈ acc, pyWS c = false) →
    ∀ w ∈ wordsAux l acc, w ≠ [] ∧ ∀ c ∈ w, pyWS c = false := by
  intro l
  induction l with
  | nil =>
    intro acc hacc w hw
    rw [wordsAux_nil_acc] at hw
    by_cases h : acc.isEmpty = true
    · rw [if_pos h] at hw
      simp at hw
    · rw [if_neg h] at hw
      have hw2 : w = acc.reverse := by simpa using hw
      subst hw2
      refine ⟨?_, ?_⟩
      · have hne : acc ≠ [] := by simpa [List.isEmpty_iff] using h
        simpa using hne
      · intro c hc
        exact hacc c (List.mem_reverse.mp hc)
  | cons c cs ih =>
    intro acc hacc w hw
    by_cases hc : pyWS c = true
    · rw [wordsAux_cons_ws c cs acc hc] at hw
      by_cases h : acc.isEmpty = true
      · rw [if_pos h] at hw
        exact ih [] (by simp) w hw
      · rw [if_neg h] at hw
        rcases List.mem_cons.mp hw with hw | hw
        · subst hw
          refine ⟨?_, ?_⟩
          · have hne : acc ≠ [] := by simpa [List.isEmpty_iff] using h
            simpa using hne
          · intro x hx
            exact hacc x (List.mem_reverse.mp hx)
        · exact ih [] (by simp) w hw
    · have hcf : pyWS c = false := by simpa using hc
      rw [wordsAux_cons_nonws c cs acc hcf] at hw
      refine ih (c :: acc) ?_ w hw
      intro x hx
      rcases List.mem_cons.mp hx with hx | hx
      · subst hx
        exact hcf
      · exact hacc x hx

theorem pyWords_good (l : List Char) :
    ∀ w ∈ pyWords l, w ≠ [] ∧ ∀ c ∈ w, pyWS c = false :=
  wordsAux_good l [] (by simp)

theorem wordLastDash_singleton (c : Char) : wordLastDash [c] = (c == '-') := rfl

theorem wordLastDash_cons_cons (c c2 : Char) (w : List Char) :
    wordLastDash (c :: c2 :: w) = wordLastDash (c2 :: w) := rfl

theorem wordLastDash_append (A B : List Char) (h : B ≠ []) :
    wordLastDash (A ++ B) = wordLastDash B := by
  unfold wordLastDash
  rw [List.getLast?_append_of_ne_nil A h]

theorem wordHeadDash_cons (c : Char) (w : List Char) :
    wordHeadDash (c :: w) = (c == '-') := rfl

theorem glue_cons_cons (w1 w2 : List Char) (rest : List (List Char)) :
    glue (w1 :: w2 :: rest) =
      w1 ++ (if wordLastDash w1 || wordHeadDash w2 then [] else [' ']) ++
        glue (w2 :: rest) := rfl

/-- The `re.sub` scan copies a whitespace-free word, except that a word
ending in a dash swallows the whitespace that follows it. -/
theorem squash_word : ∀ (w t : List Char), w ≠ [] →
    (∀ c ∈ w, pyWS c = false) →
    squashDash (w ++ t) =
      w ++ (if wordLastDash w then squashDash (t.dropWhile pyWS)
            else squashDash t) := by
  intro w
  induction w with
  | nil => intro t hne _; exact absurd rfl hne
  | cons c w2 ih =>
    intro t _ hws
    have hcf : pyWS c = false := hws c (by simp)
    cases w2 with
    | nil =>
      by_cases hd : c = '-'
      · subst hd
        have hdw : (('-') :: t).dropWhile pyWS = '-' :: t := by
          rw [List.dropWhile_cons]
          simp [pyWS]
        rw [show ['-'] ++ t = '-' :: t from rfl,
          squashDash_cons_dash '-' t t hdw]
        simp [wordLastDash]
      · have hdw : ((c :: t)).dropWhile pyWS = c :: t := by
          rw [List.dropWhile_cons, hcf]
          simp
        have hno : ∀ r, ((c :: t)).dropWhile pyWS ≠ '-' :: r := by
          intro r hcon
          rw [hdw] at hcon
          injection hcon with h1 _
          exact hd h1
        rw [show [c] ++ t = c :: t from rfl, squashDash_cons_other c t hno,
          wordLastDash_singleton]
        have hbe : (c == '-') = false := by simpa using hd
        rw [hbe]
        simp
    | cons c2 w3 =>
      have hih := ih t (by simp) (fun x hx => hws x (by simp [hx]))
      have hc2 : pyWS c2 = false := hws c2 (by simp)
      have hdw2 : ((c2 :: w3) ++ t).dropWhile pyWS = (c2 :: w3) ++ t := by
        rw [List.cons_append, List.dropWhile_cons, hc2]
        simp
      by_cases hd : c = '-'
      · subst hd
        have hdw : (('-') :: ((c2 :: w3) ++ t)).dropWhile pyWS =
            '-' :: ((c2 :: w3) ++ t) := by
          rw [List.dropWhile_cons]
          simp [pyWS]
        rw [show ('-' :: c2 :: w3) ++ t = '-' :: ((c2 :: w3) ++ t) from rfl,
          squashDash_cons_dash _ _ _ hdw, hdw2, hih, wordLastDash_cons_cons]
        simp
      · have hno : ∀ r, (c :: ((c2 :: w3) ++ t)).dropWhile pyWS ≠ '-' :: r := by
          intro r hcon
          rw [List.dropWhile_cons, hcf] at hcon
          simp only [Bool.false_eq_true, if_false] at hcon
          injection hcon with h1 _
          exact hd h1
        rw [show (c :: c2 :: w3) ++ t = c :: ((c2 :: w3) ++ t) from rfl,
          squashDash_cons_other _ _ hno, hih, wordLastDash_cons_cons]
        simp

theorem dropWhile_cons_space (l : List Char) :
    (' ' :: l).dropWhile pyWS = l.dropWhile pyWS := by
  rw [List.dropWhile_cons]
  simp [pyWS]

theorem dropWhile_cons_nonws (c : Char) (l : List Char) (hc : pyWS c = false) :
    (c :: l).dropWhile pyWS = c :: l := by
  rw [List.dropWhile_cons, hc]
  simp

theorem intercalate_cons_push (sep : List Char) (c : Char) (w : List Char)
    (rest : List (List Char)) :
    List.intercalate sep ((c :: w) :: rest) = c :: List.intercalate sep (w :: rest) := by
  cases rest with
  | nil => rw [intercalate_singleton, intercalate_singleton]
  | cons r rs =>
    rw [intercalate_cons_cons, intercalate_cons_cons]
    rfl

theorem glueDashSingleton (rest : List (List Char)) :
    glue (['-'] :: rest) = '-' :: glue rest := by
  cases rest with
  | nil => rfl
  | cons r rs =>
    rw [glue_cons_cons, wordLastDash_singleton]
    simp

theorem glueDashCons (w : List Char) (rest : List (List Char)) (h : w ≠ []) :
    glue (('-' :: w) :: rest) = '-' :: glue (w :: rest) := by
  cases rest with
  | nil => rfl
  | cons r rs =>
    obtain ⟨a, as, rfl⟩ : ∃ a as, w = a :: as := by
      cases w with
      | nil => exact absurd rfl h
      | cons a as => exact ⟨a, as, rfl⟩
    rw [glue_cons_cons, glue_cons_cons, wordLastDash_cons_cons]
    rfl

theorem glueDashLast (W : List Char) (R : List (List Char)) :
    glue ((W ++ ['-']) :: R) = W ++ '-' :: glue R := by
  cases R with
  | nil => simp [glue]
  | cons r rs =>
    rw [glue_cons_cons, wordLastDash_append W ['-'] (by simp),
      wordLastDash_singleton]
    simp

theorem glue_mid_dash (W : List Char) (R : List (List Char)) :
    glue (W :: ['-'] :: R) = W ++ '-' :: glue R := by
  rw [glue_cons_cons, glueDashSingleton]
  simp [wordHeadDash]

theorem glue_cons_congr (w : List Char) (M₁ M₂ : List (List Char))
    (hg : glue M₁ = glue M₂)
    (hh : M₁.head?.map wordHeadDash = M₂.head?.map wordHeadDash) :
    glue (w :: M₁) = glue (w :: M₂) := by
  cases M₁ with
  | nil =>
    cases M₂ with
    | nil => rfl
    | cons b bs => simp at hh
  | cons a as =>
    cases M₂ with
    | nil => simp at hh
    | cons b bs =>
      simp only [List.head?_cons, Option.map_some', Option.some.injEq] at hh
      rw [glue_cons_cons, glue_cons_cons, hg, hh]

/-- Normal form of the image_mapping key preprocessing: `' '.join` of the
words followed by the `\s*-\s*` squash is the dash-aware word join
`glue`. -/
theorem squash_glue_fuel : ∀ (n : Nat) (M : List (List Char)),
    (M.map List.length).sum ≤ n →
    (∀ w ∈ M, w ≠ [] ∧ ∀ c ∈ w, pyWS c = false) →
    squashDash (List.intercalate [' '] M) = glue M := by
  intro n
  induction n with
  | zero =>
    intro M hn hgood
    cases M with
    | nil => rfl
    | cons w ws =>
      obtain ⟨hne, _⟩ := hgood w (by simp)
      cases w with
      | nil => exact absurd rfl hne
      | cons c w' =>
        simp only [List.map_cons, List.sum_cons, List.length_cons] at hn
        omega
  | succ n ih =>
    intro M hn hgood
    match M with
    | [] => rfl
    | [w] =>
      obtain ⟨hne, hws⟩ := hgood w (by simp)
      rw [intercalate_singleton]
      have h := squash_word w [] hne hws
      rw [List.append_nil] at h
      rw [h]
      cases hL : wordLastDash w <;> simp [glue, squashDash_nil]
    | w1 :: w2 :: rest =>
      obtain ⟨h1ne, h1ws⟩ := hgood w1 (by simp)
      obtain ⟨h2ne, h2ws⟩ := hgood w2 (by simp)
      obtain ⟨c2, w2', rfl⟩ : ∃ c t, w2 = c :: t := by
        cases w2 with
        | nil => exact absurd rfl h2ne
        | cons c t => exact ⟨c, t, rfl⟩
      have hc2 : pyWS c2 = false := h2ws c2 (by simp)
      have hw1pos : 0 < w1.length := List.length_pos.mpr h1ne
      simp only [List.map_cons, List.sum_cons, List.length_cons] at hn
      have hXc : List.intercalate [' '] ((c2 :: w2') :: rest) =
          c2 :: List.intercalate [' '] (w2' :: rest) :=
        intercalate_cons_push [' '] c2 w2' rest
      have hdw : (' ' :: List.intercalate [' '] ((c2 :: w2') :: rest)).dropWhile pyWS
          = List.intercalate [' '] ((c2 :: w2') :: rest) := by
        rw [dropWhile_cons_space, hXc, dropWhile_cons_nonws c2 _ hc2]
      have hsumA : (((c2 :: w2') :: rest).map List.length).sum ≤ n := by
        simp only [List.map_cons, List.sum_cons, List.length_cons]
        omega
      have hIHa := ih ((c2 :: w2') :: rest) hsumA
        (fun w hw => hgood w (by simp [hw]))
      rw [intercalate_cons_cons,
        show w1 ++ [' '] ++ List.intercalate [' '] ((c2 :: w2') :: rest) =
          w1 ++ (' ' :: List.intercalate [' '] ((c2 :: w2') :: rest)) by simp,
        squash_word w1 _ h1ne h1ws]
      cases hL : wordLastDash w1 with
      | true =>
        rw [if_pos rfl, hdw, hIHa, glue_cons_cons, hL]
        simp
      | false =>
        simp only [Bool.false_eq_true, if_false]
        by_cases hc2d : c2 = '-'
        · subst hc2d
          have hstep : squashDash
              (' ' :: List.intercalate [' '] (('-' :: w2') :: rest)) =
              '-' :: squashDash ((List.intercalate [' '] (w2' :: rest)).dropWhile pyWS) := by
            rw [hXc]
            exact squashDash_cons_dash ' '
              ('-' :: List.intercalate [' '] (w2' :: rest))
              (List.intercalate [' '] (w2' :: rest))
              (by rw [dropWhile_cons_space, dropWhile_cons_nonws '-' _ (by decide)])
          rw [hstep]
          cases w2' with
          | cons c3 w2'' =>
            have hc3 : pyWS c3 = false := h2ws c3 (by simp)
            have hsumB : (((c3 :: w2'') :: rest).map List.length).sum ≤ n := by
              simp only [List.map_cons, List.sum_cons, List.length_cons] at hn ⊢
              omega
            have hgoodB : ∀ w ∈ (c3 :: w2'') :: rest,
                w ≠ [] ∧ ∀ c ∈ w, pyWS c = false := by
              intro w hw
              rcases List.mem_cons.mp hw with h | h
              · subst h
                exact ⟨by simp, fun c hc => h2ws c (List.mem_cons_of_mem _ hc)⟩
              · exact hgood w (by simp [h])
            have hIHb := ih ((c3 :: w2'') :: rest) hsumB hgoodB
            rw [intercalate_cons_push [' '] c3 w2'' rest,
              dropWhile_cons_nonws c3 _ hc3,
              ← intercalate_cons_push [' '] c3 w2'' rest, hIHb,
              glue_cons_cons, glueDashCons (c3 :: w2'') rest (by simp), hL]
            simp [wordHeadDash]
          | nil =>
            cases rest with
            | nil =>
              rw [intercalate_singleton]
              simp [glue_mid_dash, squashDash_nil, glue, hL, wordHeadDash]
            | cons r rs =>
              obtain ⟨hrne, hrws⟩ := hgood r (by simp)
              obtain ⟨cr, r', rfl⟩ : ∃ c t, r = c :: t := by
                cases r with
                | nil => exact absurd rfl hrne
                | cons c t => exact ⟨c, t, rfl⟩
              have hcr : pyWS cr = false := hrws cr (by simp)
              have hI2 : List.intercalate [' '] ([] :: (cr :: r') :: rs) =
                  ' ' :: List.intercalate [' '] ((cr :: r') :: rs) := by
                rw [intercalate_cons_cons]
                rfl
              have hsumC : (((cr :: r') :: rs).map List.length).sum ≤ n := by
                simp only [List.map_cons, List.sum_cons, List.length_cons] at hn ⊢
                omega
              have hIHc := ih ((cr :: r') :: rs) hsumC
                (fun w hw => hgood w (by simp [hw]))
              rw [hI2, dropWhile_cons_space,
                intercalate_cons_push [' '] cr r' rs,
                dropWhile_cons_nonws cr _ hcr,
                ← intercalate_cons_push [' '] cr r' rs, hIHc,
                glue_mid_dash]
        · have hno : ∀ r,
              (' ' :: List.intercalate [' '] ((c2 :: w2') :: rest)).dropWhile pyWS
                ≠ '-' :: r := by
            intro r hcon
            rw [hdw, hXc] at hcon
            injection hcon with h1 _
            exact hc2d h1
          rw [squashDash_cons_other ' ' _ hno, hIHa, glue_cons_cons, hL]
          have hc2b : (c2 == '-') = false := by simpa using hc2d
          simp [wordHeadDash, hc2b]

theorem glueDashMidWord (W T : List Char) (R : List (List Char)) (hT : T ≠ []) :
    glue ((W ++ '-' :: T) :: R) = W ++ '-' :: glue (T :: R) := by
  obtain ⟨a, as, rfl⟩ : ∃ a as, T = a :: as := by
    cases T with
    | nil => exact absurd rfl hT
    | cons a as => exact ⟨a, as, rfl⟩
  cases R with
  | nil => simp [glue]
  | cons r rs =>
    rw [glue_cons_cons, glue_cons_cons,
      wordLastDash_append W ('-' :: a :: as) (by simp), wordLastDash_cons_cons]
    simp

/-- Base case of the dash decomposition: a leading dash either forms its
own word or merges with the following word, and either way glues the same. -/
theorem glue_words_dash_nil (Y : List Char) :
    glue (pyWords ('-' :: Y)) = glue (['-'] :: pyWords Y) := by
  rw [pyWords_cons_nonws '-' Y (by decide)]
  cases htk : Y.takeWhile (fun x => !pyWS x) with
  | nil =>
    rw [dropWhile_eq_self_of_takeWhile_nil _ Y htk]
  | cons d tk' =>
    cases Y with
    | nil => simp at htk
    | cons y Y' =>
      rw [List.takeWhile_cons] at htk
      by_cases hny : (!pyWS y) = true
      · rw [if_pos hny] at htk
        injection htk with h1 h2
        subst h1
        have hyws : pyWS y = false := by simpa using hny
        have hdr : (y :: Y').dropWhile (fun x => !pyWS x) =
            Y'.dropWhile (fun x => !pyWS x) := by
          rw [List.dropWhile_cons, if_pos hny]
        rw [hdr, glueDashCons (y :: tk') _ (by simp),
          pyWords_cons_nonws y Y' hyws, h2, glueDashSingleton]
      · rw [if_neg hny] at htk
        simp at htk

/-- The first word of `X ++ -Y` starts with a dash exactly when the first
word of the decomposed list `pyWords X ++ [-] :: pyWords Y` does. -/
theorem pyWords_dash_head : ∀ (X Y : List Char),
    (pyWords (X ++ '-' :: Y)).head?.map wordHeadDash =
      (pyWords X ++ ['-'] :: pyWords Y).head?.map wordHeadDash := by
  intro X
  induction X with
  | nil =>
    intro Y
    rw [List.nil_append, pyWords_cons_nonws '-' Y (by decide),
      show pyWords ([] : List Char) = [] from rfl, List.nil_append]
    simp [wordHeadDash]
  | cons c X' ih =>
    intro Y
    by_cases hc : pyWS c = true
    · rw [List.cons_append, pyWords_cons_ws c _ hc, pyWords_cons_ws c X' hc]
      exact ih Y
    · have hcf : pyWS c = false := by simpa using hc
      rw [List.cons_append, pyWords_cons_nonws c _ hcf,
        pyWords_cons_nonws c X' hcf]
      simp [wordHeadDash]

/-- Dash decomposition: under `glue`, the words of `X ++ -Y` are the
words of `X`, a dash word, and the words of `Y`; the merging of the dash
with adjacent words costs nothing because `glue` omits the space at
dash-touching boundaries. -/
theorem glue_words_dash : ∀ (n : Nat) (X Y : List Char), X.length ≤ n →
    glue (pyWords (X ++ '-' :: Y)) = glue (pyWords X ++ ['-'] :: pyWords Y) := by
  intro n
  induction n with
  | zero =>
    intro X Y hX
    have hX0 : X = [] := List.length_eq_zero.mp (Nat.le_zero.mp hX)
    subst hX0
    rw [List.nil_append, show pyWords ([] : List Char) = [] from rfl,
      List.nil_append]
    exact glue_words_dash_nil Y
  | succ n ih =>
    intro X Y hX
    cases X with
    | nil =>
      rw [List.nil_append, show pyWords ([] : List Char) = [] from rfl,
        List.nil_append]
      exact glue_words_dash_nil Y
    | cons c X' =>
      simp only [List.length_cons] at hX
      by_cases hc : pyWS c = true
      · rw [List.cons_append, pyWords_cons_ws c _ hc, pyWords_cons_ws c X' hc]
        exact ih X' Y (by omega)
      · have hcf : pyWS c = false := by simpa using hc
        rw [List.cons_append, pyWords_cons_nonws c _ hcf,
          pyWords_cons_nonws c X' hcf]
        cases hD : X'.dropWhile (fun x => !pyWS x) with
        | cons d D =>
          have hnwd : (fun x => !pyWS x) d = false :=
            dropWhile_head_false _ X' d D hD
          have hdws : pyWS d = true := by simpa using hnwd
          have hstop : X'.dropWhile (fun x => !pyWS x) ≠ [] := by
            rw [hD]
            simp
          have hlen : D.length ≤ n := by
            have hle := dropWhile_length_le (fun x => !pyWS x) X'
            rw [hD] at hle
            simp only [List.length_cons] at hle
            omega
          rw [takeWhile_append_stop _ X' ('-' :: Y) hstop,
            dropWhile_append_stop _ X' ('-' :: Y) hstop, hD,
            show (d :: D) ++ '-' :: Y = d :: (D ++ '-' :: Y) from rfl,
            pyWords_cons_ws d _ hdws, pyWords_cons_ws d D hdws,
            List.cons_append]
          exact glue_cons_congr _ _ _ (ih D Y hlen) (pyWords_dash_head D Y)
        | nil =>
          have htkX : X'.takeWhile (fun x => !pyWS x) = X' :=
            takeWhile_eq_self_of_dropWhile_nil _ X' hD
          have hall : ∀ a ∈ X', (!pyWS a) = true := by
            intro a ha
            rw [← htkX] at ha
            simpa using List.mem_takeWhile_imp ha
          have htkd : ('-' :: Y).takeWhile (fun x => !pyWS x) =
              '-' :: Y.takeWhile (fun x => !pyWS x) := by
            rw [List.takeWhile_cons]
            simp [pyWS]
          have hdrd : ('-' :: Y).dropWhile (fun x => !pyWS x) =
              Y.dropWhile (fun x => !pyWS x) := by
            rw [List.dropWhile_cons]
            simp [pyWS]
          rw [takeWhile_append_of_all _ X' ('-' :: Y) hall,
            dropWhile_append_of_all _ X' ('-' :: Y) hall, htkX, htkd, hdrd,
            show pyWords ([] : List Char) = [] from rfl, List.cons_append,
            List.nil_append, glue_mid_dash]
          cases htY : Y.takeWhile (fun x => !pyWS x) with
          | nil =>
            rw [dropWhile_eq_self_of_takeWhile_nil _ Y htY,
              show c :: (X' ++ '-' :: ([] : List Char)) = (c :: X') ++ ['-'] from
                by simp,
              glueDashLast]
          | cons d tk' =>
            cases Y with
            | nil => simp at htY
            | cons y Y'' =>
              rw [List.takeWhile_cons] at htY
              by_cases hny : (!pyWS y) = true
              · rw [if_pos hny] at htY
                injection htY with h1 h2
                subst h1
                have hyws : pyWS y = false := by simpa using hny
                have hdr : (y :: Y'').dropWhile (fun x => !pyWS x) =
                    Y''.dropWhile (fun x => !pyWS x) := by
                  rw [List.dropWhile_cons, if_pos hny]
                rw [hdr,
                  show c :: (X' ++ '-' :: y :: tk') =
                    (c :: X') ++ '-' :: y :: tk' from rfl,
                  glueDashMidWord (c :: X') (y :: tk') _ (by simp),
                  pyWords_cons_nonws y Y'' hyws, h2]
              · rw [if_neg hny] at htY
                simp at htY

/-- The image_mapping key preprocessing in normal form: strip, collapse,
slash replacement and dash squash amount to the dash-aware join of the
words of the slash-replaced input. -/
theorem preNorm_glue (l : List Char) :
    preNorm l = glue (pyWords (l.map slashToDash)) := by
  unfold preNorm collapseWS
  rw [pyWords_pyStrip, intercalate_map_space slashToDash (by decide),
    ← pyWords_map slashToDash pyWS_slashToDash]
  exact squash_glue_fuel ((pyWords (l.map slashToDash)).map List.length).sum _
    le_rfl (pyWords_good _)

theorem preNorm_nil_iff (l : List Char) : preNorm l = [] ↔ pyStrip l = [] := by
  rw [preNorm_glue]
  constructor
  · intro h
    have hM : pyWords (l.map slashToDash) = [] := by
      cases hM : pyWords (l.map slashToDash) with
      | nil => rfl
      | cons w ws =>
        obtain ⟨hne, _⟩ := pyWords_good (l.map slashToDash) w
          (by rw [hM]; exact List.mem_cons_self _ _)
        rw [hM] at h
        cases ws with
        | nil => exact absurd h hne
        | cons w2 ws' =>
          rw [glue_cons_cons] at h
          simp only [List.append_eq_nil] at h
          exact absurd h.1.1 hne
    have hw : pyWords l = [] := by
      have hmap := pyWords_map slashToDash pyWS_slashToDash l
      rw [hM] at hmap
      exact List.map_eq_nil_iff.mp hmap.symm
    by_contra hne
    obtain ⟨c, t, hct, hcw⟩ := pyStrip_shape l hne
    have hpw : pyWords l ≠ [] := by
      rw [← pyWords_pyStrip, hct, pyWords_cons_nonws c t hcw]
      simp
    exact hpw hw
  · intro h
    have hw : pyWords l = [] := by
      rw [← pyWords_pyStrip, h]
      rfl
    have hmap : pyWords (l.map slashToDash) = [] := by
      rw [pyWords_map slashToDash pyWS_slashToDash, hw]
      rfl
    rw [hmap]
    rfl

theorem pyWords_append_ws (u r : List Char) (hws : ∀ c ∈ r, pyWS c = true) :
    pyWords (u ++ r) = pyWords u := by
  cases r with
  | nil => rw [List.append_nil]
  | cons a as =>
    have hb := pyWords_bridge u.length u (a :: as) [] le_rfl (by simp) hws
    rw [List.append_nil, show pyWords ([] : List Char) = [] from rfl,
      List.append_nil] at hb
    exact hb

theorem mapped_ws_run (r : List Char) (hr : ∀ c ∈ r, pyWS c = true) :
    ∀ c ∈ r.map slashToDash, pyWS c = true := by
  intro c hc
  obtain ⟨d, hd, rfl⟩ := List.mem_map.mp hc
  rw [pyWS_slashToDash]
  exact hr d hd

/-- Replacing one whitespace run by another (both nonempty) does not
change the preprocessed key material. -/
theorem preNorm_wsRun (u v r₁ r₂ : List Char) (h₁ : r₁ ≠ []) (h₂ : r₂ ≠ [])
    (hw₁ : ∀ c ∈ r₁, pyWS c = true) (hw₂ : ∀ c ∈ r₂, pyWS c = true) :
    preNorm (u ++ r₁ ++ v) = preNorm (u ++ r₂ ++ v) := by
  rw [preNorm_glue, preNorm_glue]
  simp only [List.map_append]
  rw [pyWords_bridge (u.map slashToDash).length (u.map slashToDash)
      (r₁.map slashToDash) (v.map slashToDash) le_rfl
      (by simpa using h₁) (mapped_ws_run r₁ hw₁),
    pyWords_bridge (u.map slashToDash).length (u.map slashToDash)
      (r₂.map slashToDash) (v.map slashToDash) le_rfl
      (by simpa using h₂) (mapped_ws_run r₂ hw₂)]

/-- Writing a slash for a dash does not change the preprocessed key
material (`sku.replace('/', '-')` runs before the squash). -/
theorem preNorm_slashDash (u v : List Char) :
    preNorm (u ++ '/' :: v) = preNorm (u ++ '-' :: v) := by
  rw [preNorm_glue, preNorm_glue]
  have hmap : (u ++ '/' :: v).map slashToDash = (u ++ '-' :: v).map slashToDash := by
    rw [List.map_append, List.map_append, List.map_cons, List.map_cons]
    rfl
  rw [hmap]

/-- Dropping (possibly empty) whitespace runs around a dash does not
change the preprocessed key material (`re.sub(r'\s*-\s*', '-', ...)`). -/
theorem preNorm_dashSpace (u v r₁ r₂ : List Char)
    (hw₁ : ∀ c ∈ r₁, pyWS c = true) (hw₂ : ∀ c ∈ r₂, pyWS c = true) :
    preNorm (u ++ r₁ ++ '-' :: (r₂ ++ v)) = preNorm (u ++ '-' :: v) := by
  rw [preNorm_glue, preNorm_glue]
  simp only [List.map_append, List.map_cons]
  rw [show slashToDash '-' = '-' from rfl,
    glue_words_dash (u.map slashToDash ++ r₁.map slashToDash).length
      (u.map slashToDash ++ r₁.map slashToDash)
      (r₂.map slashToDash ++ v.map slashToDash) le_rfl,
    glue_words_dash (u.map slashToDash).length (u.map slashToDash)
      (v.map slashToDash) le_rfl,
    pyWords_append_ws (u.map slashToDash) (r₁.map slashToDash)
      (mapped_ws_run r₁ hw₁),
    pyWords_ws_skip (r₂.map slashToDash) (v.map slashToDash)
      (mapped_ws_run r₂ hw₂)]

theorem preNorm_editStep (a b : List Char) (h : SkuEditStep a b) :
    preNorm a = preNorm b := by
  cases h with
  | wsRun u v r₁ r₂ h₁ h₂ hw₁ hw₂ => exact preNorm_wsRun u v r₁ r₂ h₁ h₂ hw₁ hw₂
  | slashDash u v => exact preNorm_slashDash u v
  | dashSpace u v r₁ r₂ hw₁ hw₂ => exact preNorm_dashSpace u v r₁ r₂ hw₁ hw₂

/-- Inputs with the same preprocessed key material get the same
normalized key: the blank test and every later pattern match look only at
`pyStrip`/`preNorm` of the input. -/
theorem normalized_key_of_preNorm_eq (a b : String)
    (hpre : preNorm a.data = preNorm b.data) :
    normalized_key a = normalized_key b := by
  have h1 := preNorm_nil_iff a.data
  have h2 := preNorm_nil_iff b.data
  rw [hpre] at h1
  have hiff : pyStrip a.data = [] ↔ pyStrip b.data = [] := h1.symm.trans h2
  unfold normalized_key
  simp only [normalize_sku]
  by_cases hs : (pyStrip a.data).isEmpty = true
  · have hsb : (pyStrip b.data).isEmpty = true := by
      rw [List.isEmpty_iff] at hs ⊢
      exact hiff.mp hs
    rw [if_pos hs, if_pos hsb]
  · have hsb : ¬(pyStrip b.data).isEmpty = true := by
      rw [List.isEmpty_iff] at hs ⊢
      exact fun h => hs (hiff.mpr h)
    rw [if_neg hs, if_neg hsb, hpre]

/-! ## Claim theorems -/
/-- C7: parse_sku is total (a Lean function by construction, mirroring
the Python function's lack of raising paths): an absent or blank input
yields (absent, absent), and any other input yields a pair whose base is
a non-empty string. -/
theorem c7_parse_sku_total (raw : Option String) :
    ((raw = none ∨ ∃ s, raw = some s ∧ pyStrip s.data = []) →
      parse_sku raw = (none, none)) ∧
    (∀ s, raw = some s → pyStrip s.data ≠ [] →
      ∃ b v, parse_sku raw = (some b, v) ∧ b ≠ "") := by
  constructor
  · rintro (h | ⟨s, hs, hblank⟩)
    · subst h
      rfl
    · subst hs
      simp [parse_sku, hblank]
  · intro s hs hne
    subst hs
    obtain ⟨c, t, hstrip, hc⟩ := pyStrip_shape s.data hne
    have hlistne : ¬ (pyStrip s.data).isEmpty = true := by
      rw [hstrip]
      simp
    obtain ⟨u, hcolt⟩ := collapseWS_head c t hc
    have hcol : collapseWS (pyStrip s.data) = c :: u := by
      rw [hstrip, hcolt]
    cases hd : matchDashVar (collapseWS (pyStrip s.data)) with
    | some p =>
      obtain ⟨g1, d⟩ := p
      have hg : ∃ m, g1 = c :: m := by
        rw [hcol] at hd
        exact matchDashVar_shape c u g1 d hd
      obtain ⟨m, hgm⟩ := hg
      have hb0 : pyStrip g1 ≠ [] := by
        rw [hgm]
        exact pyStrip_ne_nil c m hc
      have hfinal : (parseDeep (pyStrip g1) (some (pyStrip d))).1 ≠ [] :=
        parseDeep_fst_ne_nil _ _ hb0
      refine ⟨String.mk (parseDeep (pyStrip g1) (some (pyStrip d))).1,
        (parseDeep (pyStrip g1) (some (pyStrip d))).2.map String.mk, ?_, ?_⟩
      · simp only [parse_sku, if_neg hlistne, hd]
      · intro hcon
        exact hfinal (by simpa using congrArg String.data hcon)
    | none =>
      cases hm : matchSpaceVar (collapseWS (pyStrip s.data)) with
      | some p =>
        obtain ⟨g1, g2⟩ := p
        obtain ⟨tw, htw⟩ := matchSpaceVar_head _ g1 g2 hm
        have hb0 : pyStrip g1 ≠ [] := by
          rw [htw]
          exact pyStrip_ne_nil 'W' tw (by decide)
        have hfinal : (parseDeep (pyStrip g1) (some (pyStrip g2))).1 ≠ [] :=
          parseDeep_fst_ne_nil _ _ hb0
        refine ⟨String.mk (parseDeep (pyStrip g1) (some (pyStrip g2))).1,
          (parseDeep (pyStrip g1) (some (pyStrip g2))).2.map String.mk, ?_, ?_⟩
        · simp only [parse_sku, if_neg hlistne, hd, hm]
        · intro hcon
          exact hfinal (by simpa using congrArg String.data hcon)
      | none =>
        have hb0 : collapseWS (pyStrip s.data) ≠ [] := by
          rw [hcol]
          simp
        have hfinal : (parseDeep (collapseWS (pyStrip s.data)) none).1 ≠ [] :=
          parseDeep_fst_ne_nil _ _ hb0
        refine ⟨String.mk (parseDeep (collapseWS (pyStrip s.data)) none).1,
          (parseDeep (collapseWS (pyStrip s.data)) none).2.map String.mk, ?_, ?_⟩
        · simp only [parse_sku, if_neg hlistne, hd, hm]
        · intro hcon
          exact hfinal (by simpa using congrArg String.data hcon)

/-- C7 (witness): the totality statement applied at a blank input and at
a well-formed SKU. -/
theorem c7_witness :
    parse_sku (some "  ") = (none, none) ∧
    (∃ b v, parse_sku (some "WPJF 001-127") = (some b, v) ∧ b ≠ "") :=
  ⟨(c7_parse_sku_total (some "  ")).1 (Or.inr ⟨"  ", rfl, by decide⟩),
   (c7_parse_sku_total (some "WPJF 001-127")).2 "WPJF 001-127" rfl (by decide)⟩

/-- C4: parse_sku maps "WPJF 001-127" to ("WPJF 001", "127"),
"WPJF 001 -120" to ("WPJF 001", "120"), "WPMF001 ROSE -39" to
("WPMF001", "39") (the numeric dash variation is kept and the embedded
descriptor "ROSE" is discarded from the base by the deep-parse
correction), and "WPJF 0012 BLUE MEDIUM" to ("WPJF 0012", "BLUE MEDIUM"). -/
theorem c4_parse_sku_examples :
    parse_sku (some "WPJF 001-127") = (some "WPJF 001", some "127") ∧
    parse_sku (some "WPJF 001 -120") = (some "WPJF 001", some "120") ∧
    parse_sku (some "WPMF001 ROSE -39") = (some "WPMF001", some "39") ∧
    parse_sku (some "WPJF 0012 BLUE MEDIUM") = (some "WPJF 0012", some "BLUE MEDIUM") := by
  decide

/-- C1 (counterexample): grouping the rows with SKUs "WPJF001-A",
"WPJF001-B", "WPGR002" yields three groups, not two, and no group is
keyed "WPJF001": parse_sku only splits a trailing dash variation when it
is numeric, so the letter suffixes stay in the base code. -/
theorem c1_counterexample :
    (group_rows_by_base_sku 0 c1Rows).length = 3 ∧
    (group_rows_by_base_sku 0 c1Rows).map Prod.fst =
      ["WPJF001-A", "WPJF001-B", "WPGR002"] ∧
    (group_rows_by_base_sku 0 c1Rows).lookup "WPJF001" = none := by
  decide

/-- C1 (amended): grouping three rows whose SKU cells are "WPJF001-A",
"WPJF001-B", "WPGR002" (all other fields arbitrary) produces three
groups keyed by the full SKU strings, in row order, each containing just
its own row. -/
theorem mkGroupEntry_eq (idx : Nat) (row : Row) (raw b : String)
    (vc : Option String) (hc : cellAt row XLSX_SKU_COL = some raw)
    (hp : parse_sku (some raw) = (some b, vc)) (hb : ¬ b = "") :
    mkGroupEntry idx row = some (b,
      { row_idx := idx
        raw_sku := String.mk (pyStrip raw.data)
        var_code := vc
        color :=
          match cellAt row XLSX_COLOR_COL with
          | some c => some c
          | none => vc
        sizes := get_available_sizes row
        name := cellAt row XLSX_NAME_COL }) := by
  simp only [mkGroupEntry, hc, hp, if_neg hb]

theorem c1_amended (r1 r2 r3 : Row)
    (h1 : cellAt r1 XLSX_SKU_COL = some "WPJF001-A")
    (h2 : cellAt r2 XLSX_SKU_COL = some "WPJF001-B")
    (h3 : cellAt r3 XLSX_SKU_COL = some "WPGR002") :
    (group_rows_by_base_sku 0 [r1, r2, r3]).map Prod.fst =
      ["WPJF001-A", "WPJF001-B", "WPGR002"] ∧
    (group_rows_by_base_sku 0 [r1, r2, r3]).map
        (fun g => g.2.map (fun v => (v.row_idx, v.raw_sku))) =
      [[(0, "WPJF001-A")], [(1, "WPJF001-B")], [(2, "WPGR002")]] := by
  have e1 := mkGroupEntry_eq 0 r1 "WPJF001-A" "WPJF001-A" none h1 (by decide) (by decide)
  have e2 := mkGroupEntry_eq 1 r2 "WPJF001-B" "WPJF001-B" none h2 (by decide) (by decide)
  have e3 := mkGroupEntry_eq 2 r3 "WPGR002" "WPGR002" none h3 (by decide) (by decide)
  simp +decide [group_rows_by_base_sku, e1, e2, e3, insertGroup]

/-- C1 (witness for the amended theorem): the amended grouping statement
holds at the concrete rows of `c1Rows`. -/
theorem c1_amended_witness :
    (group_rows_by_base_sku 0 c1Rows).map Prod.fst =
      ["WPJF001-A", "WPJF001-B", "WPGR002"] ∧
    (group_rows_by_base_sku 0 c1Rows).map
        (fun g => g.2.map (fun v => (v.row_idx, v.raw_sku))) =
      [[(0, "WPJF001-A")], [(1, "WPJF001-B")], [(2, "WPGR002")]] :=
  c1_amended [none, none, some "WPJF001-A"] [none, none, some "WPJF001-B"]
    [none, none, some "WPGR002"] (by decide) (by decide) (by decide)

/-- C3 (evaluation at the failing inputs): normalize_sku keeps the
internal space of a multi-word variation in the normalized key — its own
docstring promises 'WPJF 0012 BLUE MEDIUM' -> 'WPJF0012-BLUEMEDIUM' but
the code produces "WPJF0012-BLUE MEDIUM" — and it never uppercases, so a
lowercase SKU yields a lowercase key. -/
theorem c3_code_eval :
    normalize_sku (some "WPJF 0012 BLUE MEDIUM") =
      some ("WPJF0012-BLUE MEDIUM", "WPJF0012", some "BLUE MEDIUM") ∧
    ' ' ∈ ("WPJF0012-BLUE MEDIUM" : String).data ∧
    normalize_sku (some "wpjf 001") = some ("wpjf001", "wpjf001", none) ∧
    ("wpjf001" : String).data.map pyUpper ≠ ("wpjf001" : String).data := by
  decide

/-- C6 (counterexample): a non-blank size cell whose value is not "X" is
not collected, refuting membership-iff-presence. -/
theorem c6_counterexample :
    get_available_sizes c6Row = [] ∧
    (9, "2-3") ∈ SIZE_COLUMNS ∧
    9 < c6Row.length ∧
    cellAt c6Row 9 = some "Y" ∧
    pyStrip ("Y" : String).data ≠ [] := by
  decide

/-- C6 (amended): for every row and size column, the column's size label
is collected iff the cell at that offset is in range and present and its
trimmed value uppercases to the marker "X". -/
theorem c6_amended (row : Row) (i : Nat) (lab : String)
    (hmem : (i, lab) ∈ SIZE_COLUMNS) :
    lab ∈ get_available_sizes row ↔
      (i < row.length ∧ ∃ v, cellAt row i = some v ∧
        String.mk ((pyStrip v.data).map pyUpper) = "X") := by
  unfold get_available_sizes
  rw [List.mem_filterMap]
  constructor
  · rintro ⟨p, hp, hfp⟩
    have hval : ∃ v, (if p.1 < row.length then cellAt row p.1 else none) = some v ∧
        String.mk ((pyStrip v.data).map pyUpper) = "X" ∧ p.2 = lab := by
      cases hcell : (if p.1 < row.length then cellAt row p.1 else none) with
      | none => rw [hcell] at hfp; exact absurd hfp (by simp)
      | some v =>
        rw [hcell] at hfp
        by_cases hx : String.mk ((pyStrip v.data).map pyUpper) = "X"
        · refine ⟨v, rfl, hx, ?_⟩
          simp only [if_pos hx] at hfp
          exact (Option.some_inj.mp hfp)
        · simp only [if_neg hx] at hfp
          exact absurd hfp (by simp)
    obtain ⟨v, hcell, hx, hlab⟩ := hval
    have huniq : ∀ q ∈ SIZE_COLUMNS, ∀ q2 ∈ SIZE_COLUMNS, q.2 = q2.2 → q = q2 := by
      decide
    have hpi : p = (i, lab) := huniq p hp (i, lab) hmem (by rw [hlab])
    subst hpi
    by_cases hlen : i < row.length
    · rw [if_pos hlen] at hcell
      exact ⟨hlen, v, hcell, hx⟩
    · rw [if_neg hlen] at hcell
      exact absurd hcell (by simp)
  · rintro ⟨hlen, v, hcell, hx⟩
    exact ⟨(i, lab), hmem, by simp only [if_pos hlen, hcell, if_pos hx]⟩

/-- C6 (witness for the amended theorem): the amended criterion applied at
offset 9 of `c6WRow` puts "2-3" in the size set. -/
theorem c6_amended_witness : "2-3" ∈ get_available_sizes c6WRow :=
  (c6_amended c6WRow 9 "2-3" (by decide)).mpr
    ⟨by decide, " x ", by decide, by decide⟩

/-- C8 (counterexample): the name scan stops at the first truthy name
cell; a whitespace-only name short-circuits the group to the `no_name`
failure even though a later variant has a non-blank name, refuting both
the selection rule and the exactness of the failure condition. -/
theorem c8_counterexample :
    pick_product_name [c8v1, c8v2] = none ∧
    pyStrip ("  " : String).data = [] ∧
    c8v2.name = some "Robe" ∧
    pyStrip ("Robe" : String).data ≠ [] := by
  decide

/-- C8 (amended): the representative name is chosen by scanning for the
first variant whose name cell is truthy (present and non-empty before
trimming); its trimmed value is used, and the group fails with `no_name`
when no variant has a truthy name or when that first truthy name trims
to the empty string. -/
theorem c8_amended :
    pick_product_name [] = none ∧
    (∀ (v : Variant) (rest : List Variant),
      pick_product_name (v :: rest) =
        match v.name with
        | none => pick_product_name rest
        | some n =>
          if n = "" then pick_product_name rest
          else if String.mk (pyStrip n.data) = "" then none
          else some (String.mk (pyStrip n.data))) ∧
    (∀ vs : List Variant, (∀ v ∈ vs, v.name = none ∨ v.name = some "") →
      pick_product_name vs = none) := by
  refine ⟨rfl, ?_, ?_⟩
  · intro v rest
    cases hn : v.name with
    | none => simp [pick_product_name, List.findSome?_cons, hn]
    | some n =>
      by_cases hn0 : n = ""
      · simp [pick_product_name, List.findSome?_cons, hn, hn0]
      · simp [pick_product_name, List.findSome?_cons, hn, hn0]
  · intro vs
    induction vs with
    | nil => intro _; rfl
    | cons v rest ih =>
      intro h
      have hv := h v (List.mem_cons_self v rest)
      have hrest := ih (fun w hw => h w (List.mem_cons_of_mem v hw))
      rcases hv with hv | hv <;>
        simpa [pick_product_name, List.findSome?_cons, hv] using hrest

/-- C8 (witness for the amended theorem): the amended characterization
applied at concrete groups: a group whose only variant has an absent
name fails, and a two-variant group headed by a blank-string name fails
by the first-truthy-name rule. -/
theorem c8_amended_witness :
    pick_product_name
      [{ row_idx := 0, raw_sku := "S", var_code := none, color := none,
         sizes := [], name := none }] = none ∧
    pick_product_name [c8v1, c8v2] =
      (if ("  " : String) = "" then pick_product_name [c8v2]
       else if String.mk (pyStrip ("  " : String).data) = "" then none
       else some (String.mk (pyStrip ("  " : String).data))) :=
  ⟨c8_amended.2.2 _ (by decide), c8_amended.2.1 c8v1 [c8v2]⟩

/-- C9: for every row kept by the grouper whose color cell is absent, the
constructed variant's color field equals the parsed variation token
(itself possibly absent) instead of staying absent. -/
theorem c9_color_fallback (idx : Nat) (row : Row) (k : String) (v : Variant)
    (h : mkGroupEntry idx row = some (k, v))
    (hc : cellAt row XLSX_COLOR_COL = none) :
    v.color = v.var_code := by
  cases hsku : cellAt row XLSX_SKU_COL with
  | none => simp [mkGroupEntry, hsku] at h
  | some raw =>
    cases hp : parse_sku (some raw) with
    | mk b vc =>
      cases b with
      | none => simp [mkGroupEntry, hsku, hp] at h
      | some base =>
        by_cases hb : base = ""
        · simp [mkGroupEntry, hsku, hp, hb] at h
        · rw [mkGroupEntry_eq idx row raw base vc hsku hp hb, hc] at h
          have hpair := Option.some_inj.mp h
          obtain ⟨hk, hv⟩ := Prod.mk.inj hpair
          rw [← hv]

/-- C9 (witness): at the concrete row `c9Row` the variant's color is the
parsed variation token "127". -/
theorem c9_witness :
    mkGroupEntry 5 c9Row = some ("WPJF 001", c9Var) ∧
    c9Var.color = c9Var.var_code :=
  ⟨by decide, c9_color_fallback 5 c9Row "WPJF 001" c9Var (by decide) (by decide)⟩

/-- C5 (counterexample): the cascade returns the image list of the first
stage whose key is present, even when that list is empty — here the
exact key "WPJF001-127" is present with no images, so the resolver
returns the empty list although the later base-only stage holds
["a.jpg"]; this refutes "first stage that yields a non-empty match". -/
theorem c5_counterexample :
    find_images_for_sku "WPJF001-127"
      [("WPJF001-127", []), ("WPJF001", ["a.jpg"])] = [] ∧
    List.lookup "WPJF001"
      [("WPJF001-127", ([] : List String)), ("WPJF001", ["a.jpg"])] =
      some ["a.jpg"] := by
  decide

/-- C5 (amended): the resolver applies the four lookup stages in order —
exact normalized key, base plus despaced variation, base alone, then the
first index key starting with the base — returning the stored image list
of the first stage whose key is present in the index (even if that list
is empty), and the empty sequence when no stage's key is present; in
particular the raw SKU "WPJF 001-999" resolves to the images of a folder
keyed "WPJF001" when only that key is present. -/
theorem c5_cascade (raw : String) (fm : FolderMap) :
    (raw = "" → find_images_for_sku raw fm = []) ∧
    (normalize_sku (some raw) = none → find_images_for_sku raw fm = []) ∧
    (∀ n b var, normalize_sku (some raw) = some (n, b, var) → ¬ n = "" →
      ((∀ imgs, fm.lookup (stage1Key n) = some imgs →
          find_images_for_sku raw fm = imgs) ∧
       (fm.lookup (stage1Key n) = none →
         ((∀ v imgs, var = some v → ¬ v = "" →
             fm.lookup (stage2Key b v) = some imgs →
             find_images_for_sku raw fm = imgs) ∧
          ((∀ v, var = some v → ¬ v = "" → fm.lookup (stage2Key b v) = none) →
            ((¬ b = "" → ∀ imgs, fm.lookup (baseKey b) = some imgs →
                find_images_for_sku raw fm = imgs) ∧
             (¬ b = "" → fm.lookup (baseKey b) = none →
               ((∀ p, fm.find? (fun q => (baseKey b).isPrefixOf q.1) = some p →
                   find_images_for_sku raw fm = p.2) ∧
                (fm.find? (fun q => (baseKey b).isPrefixOf q.1) = none →
                  find_images_for_sku raw fm = []))) ∧
             (b = "" → find_images_for_sku raw fm = []))))))) ∧
    (∀ imgs, find_images_for_sku "WPJF 001-999" [("WPJF001", imgs)] = imgs) := by
  refine ⟨?_, ?_, ?_, ?_⟩
  · intro h
    simp [find_images_for_sku, h]
  · intro h
    by_cases hraw : raw = ""
    · simp [find_images_for_sku, hraw]
    · simp [find_images_for_sku, hraw, h]
  · intro n b var hn hne
    have hraw : ¬ raw = "" := by
      intro h
      rw [h, show normalize_sku (some "") = none from rfl] at hn
      exact Option.noConfusion hn
    refine ⟨?_, ?_⟩
    · intro imgs h1
      simp [find_images_for_sku, hraw, hn, hne, h1]
    · intro h1
      refine ⟨?_, ?_⟩
      · intro v imgs hv hvne h2
        subst hv
        simp [find_images_for_sku, step2Lookup, hraw, hn, hne, h1, hvne, h2]
      · intro h2
        have hstep2 : step2Lookup fm b var = none := by
          cases var with
          | none => rfl
          | some v =>
            by_cases hv : v = ""
            · simp [step2Lookup, hv]
            · simp [step2Lookup, hv, h2 v rfl hv]
        refine ⟨?_, ?_, ?_⟩
        · intro hb imgs h3
          simp [find_images_for_sku, hraw, hn, hne, h1, hstep2, hb, h3]
        · intro hb h3
          refine ⟨?_, ?_⟩
          · intro p h4
            simp [find_images_for_sku, hraw, hn, hne, h1, hstep2, hb, h3, h4]
          · intro h4
            simp [find_images_for_sku, hraw, hn, hne, h1, hstep2, hb, h3, h4]
        · intro hb
          subst hb
          simp [find_images_for_sku, hraw, hn, hne, h1, hstep2]
  · intro imgs
    rfl

/-- C5 (witness for the amended theorem): the cascade theorem applied at
concrete inputs — a stage-1 hit returning a stored (non-empty) list, and
the base-only fallback of the claim's example. -/
theorem c5_cascade_witness :
    find_images_for_sku "WPJF 001-127" [("WPJF001-127", ["x.jpg"])] = ["x.jpg"] ∧
    find_images_for_sku "WPJF 001-999" [("WPJF001", ["a.jpg", "b.jpg"])] =
      ["a.jpg", "b.jpg"] := by
  constructor
  · obtain ⟨h1, h2, h3, h4⟩ := c5_cascade "WPJF 001-127" [("WPJF001-127", ["x.jpg"])]
    exact (h3 "WPJF001-127" "WPJF001" (some "127") (by decide) (by decide)).1
      ["x.jpg"] (by decide)
  · obtain ⟨h1, h2, h3, h4⟩ := c5_cascade "WPJF 001-999" [("WPJF001", ["a.jpg", "b.jpg"])]
    exact h4 ["a.jpg", "b.jpg"]

/-- C10 (counterexample): the stage-1 lookup key is not invariant under
uppercasing the raw SKU — "WPj001 A" and its uppercase form "WPJ001 A"
produce the distinct keys "WPJ001A" and "WPJ001-A", because normalize_sku's
case-sensitive space-variation pattern only fires on the uppercase form
and inserts a dash. -/
theorem c10_counterexample :
    strUpper "WPj001 A" = "WPJ001 A" ∧
    exact_match_key "WPj001 A" = some "WPJ001A" ∧
    exact_match_key "WPJ001 A" = some "WPJ001-A" ∧
    ("WPJ001A" : String) ≠ "WPJ001-A" := by
  decide

theorem map_pyUpper_idem (m : List Char) :
    (m.map pyUpper).map pyUpper = m.map pyUpper := by
  rw [List.map_map]
  exact List.map_congr_left (fun c _ => pyUpper_idem c)

/-- C10 (amended): folder keys and stage-1 lookup keys are always
uppercase (both sides of the exact-match comparison go through
`.upper()`), and the stage-1 key is invariant under uppercasing the raw
SKU whenever the SKU's preprocessed form is already uppercase — but not
for every raw SKU, since normalize_sku's patterns are case-sensitive. -/
theorem c10_amended :
    (∀ name : String, get_folder_key name = strUpper (get_folder_key name)) ∧
    (∀ raw k, exact_match_key raw = some k → k = strUpper k) ∧
    (∀ raw : String, (preNorm raw.data).map pyUpper = preNorm raw.data →
      exact_match_key (strUpper raw) = exact_match_key raw) := by
  refine ⟨?_, ?_, ?_⟩
  · intro name
    unfold get_folder_key strUpper
    exact congrArg String.mk (map_pyUpper_idem _).symm
  · intro raw k h
    unfold exact_match_key at h
    cases hn : normalize_sku (some raw) with
    | none => rw [hn] at h; exact Option.noConfusion h
    | some t =>
      rw [hn] at h
      have hk : k = stage1Key t.1 := (Option.some_inj.mp h).symm
      subst hk
      unfold stage1Key strUpper
      exact congrArg String.mk (map_pyUpper_idem _).symm
  · intro raw hfix
    have hdata : (strUpper raw).data = raw.data.map pyUpper := rfl
    have hpre : preNorm ((strUpper raw).data) = preNorm raw.data := by
      rw [hdata, preNorm_map_pyUpper, hfix]
    have hstrip : pyStrip ((strUpper raw).data) = (pyStrip raw.data).map pyUpper := by
      rw [hdata, pyStrip_map pyUpper pyWS_pyUpper]
    simp only [exact_match_key, normalize_sku]
    by_cases hb : (pyStrip raw.data).isEmpty = true
    · have hb0 : pyStrip raw.data = [] := List.isEmpty_iff.mp hb
      have hb2 : (pyStrip ((strUpper raw).data)).isEmpty = true := by
        rw [hstrip, hb0]
        rfl
      rw [if_pos hb, if_pos hb2]
    · have hb2 : ¬ (pyStrip ((strUpper raw).data)).isEmpty = true := by
        rw [hstrip]
        intro hcon
        apply hb
        have h3 : (pyStrip raw.data).map pyUpper = [] := List.isEmpty_iff.mp hcon
        have h4 : pyStrip raw.data = [] := by
          cases hx : pyStrip raw.data with
          | nil => rfl
          | cons a as => rw [hx] at h3; exact List.noConfusion h3
        rw [h4]
        rfl
      rw [if_neg hb, if_neg hb2, hpre]

/-- C10 (witness for the amended theorem): at the already-uppercase raw
SKU "WPJF 001-127" the stage-1 key is uppercasing-invariant, and its key
"WPJF001-127" is indeed an uppercase-fixed string. -/
theorem c10_amended_witness :
    exact_match_key (strUpper "WPJF 001-127") = exact_match_key "WPJF 001-127" ∧
    "WPJF001-127" = strUpper "WPJF001-127" :=
  ⟨c10_amended.2.2 "WPJF 001-127" (by decide),
   c10_amended.2.1 "WPJF 001-127" "WPJF001-127" (by decide)⟩

/-- C2 counterexample: "WPj001 A" and "WPJ001 A" differ only in the case
of one letter (their uppercased forms agree), yet normalize_sku gives
them different normalized keys — the WP match patterns are
case-sensitive, so the lowercase spelling falls through to the despacing
fallback and never gets the variation dash. -/
theorem c2_counterexample :
    "WPj001 A".data.map pyUpper = "WPJ001 A".data.map pyUpper ∧
    normalized_key (String.mk "WPj001 A".data) ≠
      normalized_key (String.mk "WPJ001 A".data) := by
  decide

/-- C2 (amended): raw SKU spellings related by formatting edits — any
change of a nonempty whitespace run's characters or length, writing a
slash for a dash, or adding/dropping whitespace around a dash — receive
the same normalized key from normalize_sku.  (The claim's letter-case
clause does not hold; the rest does.) -/
theorem c2_amended (a b : List Char) (h : Relation.EqvGen SkuEditStep a b) :
    normalized_key (String.mk a) = normalized_key (String.mk b) := by
  induction h with
  | rel x y hxy =>
    exact normalized_key_of_preNorm_eq (String.mk x) (String.mk y)
      (preNorm_editStep x y hxy)
  | refl x => rfl
  | symm x y hxy ih => exact ih.symm
  | trans x y z hxy hyz ih₁ ih₂ => exact ih₁.trans ih₂

/-- C2 (witness): "WPCHF001 /C1" reaches "WPCHF001-C1" by a slash-to-dash
edit followed by dropping the whitespace run before the dash, so the two
spellings share a normalized key; concretely it is "WPCHF001-C1". -/
theorem c2_amended_witness :
    normalized_key (String.mk "WPCHF001 /C1".data) =
      normalized_key (String.mk "WPCHF001-C1".data) ∧
    normalized_key (String.mk "WPCHF001 /C1".data) = some "WPCHF001-C1" := by
  constructor
  · have h1 := SkuEditStep.slashDash "WPCHF001 ".data "C1".data
    have h2 := SkuEditStep.dashSpace "WPCHF001".data "C1".data [' '] []
      (by decide) (by decide)
    have eA : "WPCHF001 ".data ++ '/' :: "C1".data = "WPCHF001 /C1".data := rfl
    have eB : "WPCHF001 ".data ++ '-' :: "C1".data = "WPCHF001 -C1".data := rfl
    have eB2 : "WPCHF001".data ++ [' '] ++ '-' :: (([] : List Char) ++ "C1".data) =
      "WPCHF001 -C1".data := rfl
    have eC : "WPCHF001".data ++ '-' :: "C1".data = "WPCHF001-C1".data := rfl
    rw [eA, eB] at h1
    rw [eB2, eC] at h2
    exact c2_amended "WPCHF001 /C1".data "WPCHF001-C1".data
      (Relation.EqvGen.trans _ _ _
        (Relation.EqvGen.rel _ _ h1) (Relation.EqvGen.rel _ _ h2))
  · decide

end WhitePigeon
